import Mathlib

/-
Verification of the half-edge mesh core of the `compas` repository.

The Python source keeps three tables inside a mesh instance:
`self.vertex` (vertex key to coordinates), `self.face` (face key to the
ordered loop of vertex keys), and `self.halfedge` (directed vertex pair to
the face key on its left, or `None` on a boundary side).  Python `dict`s
are embedded as association lists with unique keys; `dict` lookup,
assignment and `del` become `alistGet`, `alistSet` and `alistDel`.
Fallible Python code (raising `ValueError` / `KeyError` /
`ZeroDivisionError` / `TypeError`) is embedded with `Except String`.
Floating point coordinates are embedded as rationals: every arithmetic
operation the verified code performs (linear interpolation, division by a
vertex degree) is exact on the inputs considered.
-/

set_option autoImplicit false

namespace Compas

universe u v

variable {α : Type u} {β : Type v}

/-- First-match lookup in an association list; `alistGet l k = some b`
corresponds to `l[k]` succeeding in Python, `none` to a `KeyError`. -/
def alistGet [DecidableEq α] : List (α × β) → α → Option β
  | [], _ => none
  | (a, b) :: l, k => if a = k then some b else alistGet l k

/-- `l[k] = v` on a Python dict: replace the first binding of `k`,
or append a fresh binding. -/
def alistSet [DecidableEq α] : List (α × β) → α → β → List (α × β)
  | [], k, v => [(k, v)]
  | (a, b) :: l, k, v => if a = k then (k, v) :: l else (a, b) :: alistSet l k v

/-- `del l[k]` on a Python dict: drop every binding of `k` (association
lists built by `alistSet` have unique keys, so at most one is dropped). -/
def alistDel [DecidableEq α] (l : List (α × β)) (k : α) : List (α × β) :=
  l.filter (fun kv => kv.1 ≠ k)

@[simp] theorem alistGet_nil [DecidableEq α] (k : α) :
    alistGet ([] : List (α × β)) k = none := rfl

@[simp] theorem alistGet_cons [DecidableEq α] (a : α) (b : β) (l : List (α × β)) (k : α) :
    alistGet ((a, b) :: l) k = if a = k then some b else alistGet l k := rfl

@[simp] theorem alistGet_set_self [DecidableEq α] (l : List (α × β)) (k : α) (v : β) :
    alistGet (alistSet l k v) k = some v := by
  induction l with
  | nil => simp [alistSet]
  | cons hd tl ih =>
    obtain ⟨a, b⟩ := hd
    by_cases h : a = k <;> simp [alistSet, h, ih]

theorem alistGet_set_ne [DecidableEq α] (l : List (α × β)) (k k' : α) (v : β)
    (h : k ≠ k') : alistGet (alistSet l k v) k' = alistGet l k' := by
  induction l with
  | nil => simp [alistSet, alistGet, h]
  | cons hd tl ih =>
    obtain ⟨a, b⟩ := hd
    by_cases ha : a = k
    · subst ha
      simp [alistSet, alistGet, h]
    · simp [alistSet, alistGet, ha, ih]

@[simp] theorem alistGet_del_self [DecidableEq α] (l : List (α × β)) (k : α) :
    alistGet (alistDel l k) k = none := by
  induction l with
  | nil => rfl
  | cons hd tl ih =>
    obtain ⟨a, b⟩ := hd
    by_cases h : a = k <;> simp [alistDel, h, ih] at *
    · exact ih
    · simpa [alistDel, alistGet, h] using ih

theorem alistGet_del_ne [DecidableEq α] (l : List (α × β)) (k k' : α)
    (h : k ≠ k') : alistGet (alistDel l k) k' = alistGet l k' := by
  induction l with
  | nil => rfl
  | cons hd tl ih =>
    obtain ⟨a, b⟩ := hd
    by_cases ha : a = k
    · have hdel : alistDel ((a, b) :: tl) k = alistDel tl k := by
        simp [alistDel, ha]
      have ha' : a ≠ k' := by rw [ha]; exact h
      rw [hdel, ih, alistGet_cons, if_neg ha']
    · have hdel : alistDel ((a, b) :: tl) k = (a, b) :: alistDel tl k := by
        simp [alistDel, ha]
      rw [hdel, alistGet_cons, alistGet_cons, ih]

theorem mem_of_alistGet_eq_some [DecidableEq α] {l : List (α × β)} {k : α} {v : β}
    (h : alistGet l k = some v) : (k, v) ∈ l := by
  induction l with
  | nil => simp [alistGet] at h
  | cons hd tl ih =>
    obtain ⟨a, b⟩ := hd
    by_cases ha : a = k
    · subst ha
      simp [alistGet] at h
      simp [h]
    · simp [alistGet, ha] at h
      exact List.mem_cons_of_mem _ (ih h)

theorem alistGet_append_right [DecidableEq α] {l₁ : List (α × β)} (l₂ : List (α × β))
    {k : α} (h : ∀ kv ∈ l₁, kv.1 ≠ k) :
    alistGet (l₁ ++ l₂) k = alistGet l₂ k := by
  induction l₁ with
  | nil => rfl
  | cons hd tl ih =>
    obtain ⟨a, b⟩ := hd
    have ha : a ≠ k := h (a, b) (by simp)
    simp only [List.cons_append, alistGet_cons, if_neg ha]
    exact ih (fun kv hkv => h kv (List.mem_cons_of_mem _ hkv))

theorem alistGet_append_left [DecidableEq α] {l₁ : List (α × β)} (l₂ : List (α × β))
    {k : α} {v : β} (h : alistGet l₁ k = some v) :
    alistGet (l₁ ++ l₂) k = some v := by
  induction l₁ with
  | nil => simp [alistGet] at h
  | cons hd tl ih =>
    obtain ⟨a, b⟩ := hd
    by_cases ha : a = k <;> simp_all [alistGet]

/-- A point in 3-space; coordinates are embedded as exact rationals. -/
abbrev Point := ℚ × ℚ × ℚ

/-- The mutable state of a compas half-edge mesh: the three tables
`self.vertex`, `self.face`, `self.halfedge`, plus the next fresh key for
each of the two identifier registries (the spec requires identifiers that
are never reused while referenced; compas uses increasing integer keys). -/
structure Mesh where
  vertex : List (Nat × Point)
  face : List (Nat × List Nat)
  halfedge : List ((Nat × Nat) × Option Nat)
  nextVertexKey : Nat
  nextFaceKey : Nat
  deriving DecidableEq

/-- Modelled from the spec: `Mesh.edge_point(u, v, t)` is not under `src/`;
spec section 4.2 and section 8 define it as the point interpolated linearly
between the positions of `u` and `v` at parameter `t`.  A missing vertex
key would raise `KeyError` in Python. -/
def edge_point (m : Mesh) (u v : Nat) (t : ℚ) : Except String Point :=
  match alistGet m.vertex u, alistGet m.vertex v with
  | some a, some b =>
      .ok (a.1 + t * (b.1 - a.1), a.2.1 + t * (b.2.1 - a.2.1),
           a.2.2 + t * (b.2.2 - a.2.2))
  | _, _ => .error "KeyError: vertex"

/-- Modelled from the spec: `Mesh.add_vertex` is not under `src/`; spec
section 4.1 specifies insertion of a new vertex with a fresh identifier and
"no side effects beyond table insertion" (the non-finite-position check is
vacuous over exact rationals). -/
def add_vertex (m : Mesh) (p : Point) : Mesh × Nat :=
  ({ m with vertex := m.vertex ++ [(m.nextVertexKey, p)],
            nextVertexKey := m.nextVertexKey + 1 }, m.nextVertexKey)

/-- The consecutive cyclic pairs of a loop: `[a, b, c]` gives
`[(a, b), (b, c), (c, a)]`. -/
def cyclicPairs (vs : List Nat) : List (Nat × Nat) :=
  vs.zip (vs.drop 1 ++ vs.take 1)

/-- For each consecutive pair `(a, b)` of a new face, record
`halfedge[a][b] = fkey` and, when the opposite direction `(b, a)` is not
yet present, record it as a boundary entry `none`. -/
def addLoopHalfedges (he : List ((Nat × Nat) × Option Nat)) (fkey : Nat) :
    List (Nat × Nat) → List ((Nat × Nat) × Option Nat)
  | [] => he
  | (a, b) :: rest =>
    let he1 := alistSet he (a, b) (some fkey)
    let he2 := if alistGet he1 (b, a) = none then alistSet he1 (b, a) none else he1
    addLoopHalfedges he2 fkey rest

/-- Modelled from the spec: `Mesh.add_face` is not under `src/`; spec
section 4.1 specifies that it registers the face under a fresh identifier
and populates half-edge entries for each consecutive pair.  The spec's
optional rejection of an already-claimed directed pair is a documented
policy choice; the repository's splits (spec sections 4.2 and 8, the
quadrilateral scenario) require the permissive behaviour in which the
half-edge entry is overwritten, which is what is modelled here. -/
def add_face (m : Mesh) (vs : List Nat) : Mesh × Nat :=
  ({ m with face := m.face ++ [(m.nextFaceKey, vs)],
            halfedge := addLoopHalfedges m.halfedge m.nextFaceKey (cyclicPairs vs),
            nextFaceKey := m.nextFaceKey + 1 }, m.nextFaceKey)

/-- Python `L.insert(L.index(x), w)`: insert `w` immediately before the
first occurrence of `x`. -/
def insertBefore : List Nat → Nat → Nat → List Nat
  | [], _, _ => []
  | y :: ys, x, w => if y = x then w :: y :: ys else y :: insertBefore ys x w

/-- The per-side face update of `mesh_split_edge`: when the side has a real
face, splice `w` into its loop immediately before `x` (Python
`j = self.face[fkey].index(x); self.face[fkey].insert(j, w)`); the `None`
side leaves the face table alone. -/
def faceInsertStep (m : Mesh) (fkey : Option Nat) (x w : Nat) : Except String Mesh :=
  match fkey with
  | none => .ok m
  | some fk =>
    match alistGet m.face fk with
    | none => .error "KeyError: face"
    | some L =>
      if x ∈ L then .ok { m with face := alistSet m.face fk (insertBefore L x w) }
      else .error "ValueError: x is not in list"

/-- `mesh_split_edge` from
`src/compas/datastructures/mesh/operations/split.py`.  `.ok (m, none)`
embeds the bare `return` (the boundary-skip signal); `.error` embeds a
raised exception. -/
def mesh_split_edge (m : Mesh) (u v : Nat) (t : ℚ) (allow_boundary : Bool) :
    Except String (Mesh × Option Nat) :=
  if t ≤ 0 then .error "t should be greater than 0.0."
  else if 1 ≤ t then .error "t should be smaller than 1.0."
  else
    match alistGet m.halfedge (u, v), alistGet m.halfedge (v, u) with
    | some fkey_uv, some fkey_vu =>
      if !allow_boundary && (fkey_uv.isNone || fkey_vu.isNone) then
        .ok (m, none)
      else
        match edge_point m u v t with
        | .error e => .error e
        | .ok p =>
          let mw := add_vertex m p
          let w := mw.2
          let he1 := alistDel (alistSet (alistSet mw.1.halfedge (u, w) fkey_uv)
                        (w, v) fkey_uv) (u, v)
          match faceInsertStep { mw.1 with halfedge := he1 } fkey_uv v w with
          | .error e => .error e
          | .ok m3 =>
            let he2 := alistDel (alistSet (alistSet m3.halfedge (v, w) fkey_vu)
                          (w, u) fkey_vu) (v, u)
            match faceInsertStep { m3 with halfedge := he2 } fkey_vu u w with
            | .error e => .error e
            | .ok m5 => .ok (m5, some w)
    | _, _ => .error "KeyError: halfedge"

/-- One directed side `(a, b)` of `trimesh_split_edge`: a boundary side
installs the two boundary half-edges `(a, w)` and `(w, b)` and removes
`(a, b)`; a face side reads the triangle's loop, takes the loop entry
preceding `a` as the opposite vertex `o` (Python `face[face.index(a) - 1]`,
where index `-1` wraps to the last entry), adds the triangles `[a, w, o]`
and `[w, b, o]`, and deletes the half-edge `(a, b)` and the old face. -/
def trimeshSideStep (m : Mesh) (a b w : Nat) (fkey : Option Nat) : Except String Mesh :=
  match fkey with
  | none =>
    let he := alistSet (alistSet m.halfedge (a, w) none) (w, b) none
    .ok { m with halfedge := alistDel he (a, b) }
  | some fk =>
    match alistGet m.face fk with
    | none => .error "KeyError: face"
    | some L =>
      if a ∈ L then
        let o := L.getD ((L.indexOf a + L.length - 1) % L.length) 0
        let m1 := (add_face m [a, w, o]).1
        let m2 := (add_face m1 [w, b, o]).1
        .ok { m2 with halfedge := alistDel m2.halfedge (a, b),
                      face := alistDel m2.face fk }
      else .error "ValueError: a is not in list"

/-- `trimesh_split_edge` from
`src/compas/datastructures/mesh/operations/split.py`. -/
def trimesh_split_edge (m : Mesh) (u v : Nat) (t : ℚ) (allow_boundary : Bool) :
    Except String (Mesh × Option Nat) :=
  if t ≤ 0 then .error "t should be greater than 0.0."
  else if 1 ≤ t then .error "t should be smaller than 1.0."
  else
    match alistGet m.halfedge (u, v), alistGet m.halfedge (v, u) with
    | some fkey_uv, some fkey_vu =>
      if !allow_boundary && (fkey_uv.isNone || fkey_vu.isNone) then
        .ok (m, none)
      else
        match edge_point m u v t with
        | .error e => .error e
        | .ok p =>
          let mw := add_vertex m p
          match trimeshSideStep mw.1 u v mw.2 fkey_uv with
          | .error e => .error e
          | .ok m2 =>
            match trimeshSideStep m2 v u mw.2 fkey_vu with
            | .error e => .error e
            | .ok m3 => .ok (m3, some mw.2)
    | _, _ => .error "KeyError: halfedge"

/-- `mesh_split_face` from
`src/compas/datastructures/mesh/operations/split.py`.  Python's slices
`face[i:j+1]`, `face[j:] + face[:i+1]`, `face[i:] + face[:j+1]` and
`face[j:i+1]` are written with `List.drop` / `List.take`. -/
def mesh_split_face (m : Mesh) (fkey u v : Nat) : Except String (Mesh × Nat × Nat) :=
  match alistGet m.face fkey with
  | none => .error "KeyError: face"
  | some L =>
    if u ∉ L ∨ v ∉ L then
      .error "The split vertices do not belong to the split face."
    else
      let i := L.indexOf u
      let j := L.indexOf v
      if i + 1 = j then .error "The split vertices are neighbours."
      else
        let f := if i < j then (L.drop i).take (j + 1 - i)
                 else L.drop i ++ L.take (j + 1)
        let g := if i < j then L.drop j ++ L.take (i + 1)
                 else (L.drop j).take (i + 1 - j)
        let mf := add_face m f
        let mg := add_face mf.1 g
        .ok ({ mg.1 with face := alistDel mg.1.face fkey }, mf.2, mg.2)

/-- A single triangle `[0, 1, 2]`; the three reverse half-edges are
boundary entries. -/
def oneTriangleMesh : Mesh where
  vertex := [(0, (0, 0, 0)), (1, (1, 0, 0)), (2, (0, 1, 0))]
  face := [(0, [0, 1, 2])]
  halfedge := [((0, 1), some 0), ((1, 2), some 0), ((2, 0), some 0),
               ((1, 0), none), ((2, 1), none), ((0, 2), none)]
  nextVertexKey := 3
  nextFaceKey := 1

/-- Two triangles `[0, 1, 2]` and `[1, 0, 3]` sharing the interior edge
`(0, 1)`; the outer reverse half-edges are boundary entries. -/
def twoTriangleMesh : Mesh where
  vertex := [(0, (0, 0, 0)), (1, (1, 0, 0)), (2, (0, 1, 0)), (3, (0, -1, 0))]
  face := [(0, [0, 1, 2]), (1, [1, 0, 3])]
  halfedge := [((0, 1), some 0), ((1, 2), some 0), ((2, 0), some 0),
               ((1, 0), some 1), ((0, 3), some 1), ((3, 1), some 1),
               ((2, 1), none), ((0, 2), none), ((3, 0), none), ((1, 3), none)]
  nextVertexKey := 4
  nextFaceKey := 2

/-- A single quadrilateral face `[0, 1, 2, 3]`. -/
def quadMesh : Mesh where
  vertex := [(0, (0, 0, 0)), (1, (1, 0, 0)), (2, (1, 1, 0)), (3, (0, 1, 0))]
  face := [(0, [0, 1, 2, 3])]
  halfedge := [((0, 1), some 0), ((1, 2), some 0), ((2, 3), some 0), ((3, 0), some 0),
               ((1, 0), none), ((2, 1), none), ((3, 2), none), ((0, 3), none)]
  nextVertexKey := 4
  nextFaceKey := 1

/-- A mesh whose single vertex has no neighbours. -/
def isolatedVertexMesh : Mesh where
  vertex := [(0, (0, 0, 0))]
  face := []
  halfedge := []
  nextVertexKey := 1
  nextFaceKey := 0

/-- C3: on a boundary edge (one of the two half-edge directions maps to
the no-face sentinel) with `allow_boundary = False` and `0 < t < 1`, both
`mesh_split_edge` and `trimesh_split_edge` return the not-performed signal
(no vertex key) and leave the whole mesh state unchanged. -/
theorem split_edge_boundary_skip (m : Mesh) (u v : Nat) (t : ℚ)
    (fuv fvu : Option Nat)
    (ht0 : 0 < t) (ht1 : t < 1)
    (huv : alistGet m.halfedge (u, v) = some fuv)
    (hvu : alistGet m.halfedge (v, u) = some fvu)
    (hb : fuv = none ∨ fvu = none) :
    mesh_split_edge m u v t false = .ok (m, none) ∧
    trimesh_split_edge m u v t false = .ok (m, none) := by
  have h1 : ¬ t ≤ 0 := not_le.mpr ht0
  have h2 : ¬ (1 : ℚ) ≤ t := not_le.mpr ht1
  have hcond : (fuv.isNone || fvu.isNone) = true := by
    rcases hb with h | h <;> simp [h]
  constructor <;>
    simp [mesh_split_edge, trimesh_split_edge, h1, h2, huv, hvu, hcond]

/-- Witness for C3 on the single-triangle mesh, whose edge `(0, 1)` is a
boundary edge, at `t = 1/2`. -/
theorem split_edge_boundary_skip_witness :
    ((0 : ℚ) < 1/2 ∧ (1 : ℚ)/2 < 1 ∧
      alistGet oneTriangleMesh.halfedge (0, 1) = some (some 0) ∧
      alistGet oneTriangleMesh.halfedge (1, 0) = some none) ∧
    (mesh_split_edge oneTriangleMesh 0 1 (1/2) false = .ok (oneTriangleMesh, none) ∧
     trimesh_split_edge oneTriangleMesh 0 1 (1/2) false = .ok (oneTriangleMesh, none)) :=
  ⟨⟨by norm_num, by norm_num, by decide, by decide⟩,
   split_edge_boundary_skip oneTriangleMesh 0 1 (1/2) (some 0) none
     (by norm_num) (by norm_num) (by decide) (by decide) (Or.inr rfl)⟩

theorem pair_ne_fst {a b c d : Nat} (h : a ≠ c) : (a, b) ≠ (c, d) :=
  fun hh => h (congrArg Prod.fst hh)

theorem pair_ne_snd {a b c d : Nat} (h : b ≠ d) : (a, b) ≠ (c, d) :=
  fun hh => h (congrArg Prod.snd hh)

/-- `insertBefore` places `w` immediately before the first occurrence of
`x`: the loop decomposes as `l₁ ++ x :: l₂` with `x ∉ l₁`, and the result
is `l₁ ++ w :: x :: l₂`. -/
theorem insertBefore_spec {L : List Nat} {x : Nat} (w : Nat) (hx : x ∈ L) :
    ∃ l₁ l₂, L = l₁ ++ x :: l₂ ∧ x ∉ l₁ ∧
      insertBefore L x w = l₁ ++ w :: x :: l₂ := by
  induction L with
  | nil => cases hx
  | cons y ys ih =>
    by_cases hy : y = x
    · subst hy
      exact ⟨[], ys, rfl, by simp, by simp [insertBefore]⟩
    · have hx' : x ∈ ys := by
        rcases List.mem_cons.mp hx with h | h
        · exact absurd h.symm hy
        · exact h
      obtain ⟨l₁, l₂, hL, hnx, hins⟩ := ih hx'
      refine ⟨y :: l₁, l₂, by simp [hL], ?_, by simp [insertBefore, hy, hins]⟩
      intro hmem
      rcases List.mem_cons.mp hmem with h | h
      · exact hy h.symm
      · exact hnx h

/-- C1: splitting an interior edge `(u, v)` at `0 < t < 1` adds a vertex
`w` at the linear interpolation of the endpoint positions, replaces the
half-edge `(u, v)` by `(u, w)` and `(w, v)` mapping to the UV face,
replaces `(v, u)` by `(v, w)` and `(w, u)` mapping to the VU face, and
splices `w` into the UV face loop immediately before `v` and into the VU
face loop immediately before `u`. -/
theorem mesh_split_edge_interior (m : Mesh) (u v : Nat) (t : ℚ)
    (fuv fvu : Nat) (Luv Lvu : List Nat) (pu pv : Point)
    (ht0 : 0 < t) (ht1 : t < 1) (huvne : u ≠ v)
    (huv : alistGet m.halfedge (u, v) = some (some fuv))
    (hvu : alistGet m.halfedge (v, u) = some (some fvu))
    (hpu : alistGet m.vertex u = some pu)
    (hpv : alistGet m.vertex v = some pv)
    (hfne : fuv ≠ fvu)
    (hLuv : alistGet m.face fuv = some Luv) (hvL : v ∈ Luv)
    (hLvu : alistGet m.face fvu = some Lvu) (huL : u ∈ Lvu)
    (hfresh : ∀ kv ∈ m.vertex, kv.1 < m.nextVertexKey) :
    ∃ m', mesh_split_edge m u v t false = .ok (m', some m.nextVertexKey) ∧
      alistGet m'.vertex m.nextVertexKey =
        some (pu.1 + t * (pv.1 - pu.1), pu.2.1 + t * (pv.2.1 - pu.2.1),
              pu.2.2 + t * (pv.2.2 - pu.2.2)) ∧
      alistGet m'.halfedge (u, m.nextVertexKey) = some (some fuv) ∧
      alistGet m'.halfedge (m.nextVertexKey, v) = some (some fuv) ∧
      alistGet m'.halfedge (u, v) = none ∧
      alistGet m'.halfedge (v, m.nextVertexKey) = some (some fvu) ∧
      alistGet m'.halfedge (m.nextVertexKey, u) = some (some fvu) ∧
      alistGet m'.halfedge (v, u) = none ∧
      (∃ l₁ l₂, Luv = l₁ ++ v :: l₂ ∧ v ∉ l₁ ∧
        alistGet m'.face fuv = some (l₁ ++ m.nextVertexKey :: v :: l₂)) ∧
      (∃ l₁ l₂, Lvu = l₁ ++ u :: l₂ ∧ u ∉ l₁ ∧
        alistGet m'.face fvu = some (l₁ ++ m.nextVertexKey :: u :: l₂)) := by
  set w := m.nextVertexKey with hwdef
  have hwu : w ≠ u := Nat.ne_of_gt (hfresh (u, pu) (mem_of_alistGet_eq_some hpu))
  have hwv : w ≠ v := Nat.ne_of_gt (hfresh (v, pv) (mem_of_alistGet_eq_some hpv))
  have h1 : ¬ t ≤ 0 := not_le.mpr ht0
  have h2 : ¬ (1 : ℚ) ≤ t := not_le.mpr ht1
  have hFvu : alistGet (alistSet m.face fuv (insertBefore Luv v w)) fvu = some Lvu := by
    rw [alistGet_set_ne _ _ _ _ hfne, hLvu]
  have hrun : mesh_split_edge m u v t false = .ok
      ({ vertex := m.vertex ++ [(w, (pu.1 + t * (pv.1 - pu.1),
            pu.2.1 + t * (pv.2.1 - pu.2.1), pu.2.2 + t * (pv.2.2 - pu.2.2)))],
         face := alistSet (alistSet m.face fuv (insertBefore Luv v w)) fvu
            (insertBefore Lvu u w),
         halfedge := alistDel (alistSet (alistSet
            (alistDel (alistSet (alistSet m.halfedge (u, w) (some fuv))
              (w, v) (some fuv)) (u, v))
            (v, w) (some fvu)) (w, u) (some fvu)) (v, u),
         nextVertexKey := w + 1,
         nextFaceKey := m.nextFaceKey }, some w) := by
    simp [mesh_split_edge, h1, h2, huv, hvu, edge_point, hpu, hpv, add_vertex,
          faceInsertStep, hLuv, hvL, hFvu, huL]
  refine ⟨_, hrun, ?_, ?_, ?_, ?_, ?_, ?_, ?_, ?_, ?_⟩
  · show alistGet (m.vertex ++ [(w, _)]) w = _
    rw [alistGet_append_right _ (fun kv hkv => Nat.ne_of_lt (hfresh kv hkv))]
    simp [alistGet]
  · show alistGet _ (u, w) = some (some fuv)
    rw [alistGet_del_ne _ _ _ (pair_ne_fst (Ne.symm huvne)),
        alistGet_set_ne _ _ _ _ (pair_ne_fst hwu),
        alistGet_set_ne _ _ _ _ (pair_ne_fst (Ne.symm huvne)),
        alistGet_del_ne _ _ _ (pair_ne_snd (Ne.symm hwv)),
        alistGet_set_ne _ _ _ _ (pair_ne_fst hwu),
        alistGet_set_self]
  · show alistGet _ (w, v) = some (some fuv)
    rw [alistGet_del_ne _ _ _ (pair_ne_fst (Ne.symm hwv)),
        alistGet_set_ne _ _ _ _ (pair_ne_snd huvne),
        alistGet_set_ne _ _ _ _ (pair_ne_fst (Ne.symm hwv)),
        alistGet_del_ne _ _ _ (pair_ne_fst (Ne.symm hwu)),
        alistGet_set_self]
  · show alistGet _ (u, v) = none
    rw [alistGet_del_ne _ _ _ (pair_ne_fst (Ne.symm huvne)),
        alistGet_set_ne _ _ _ _ (pair_ne_fst hwu),
        alistGet_set_ne _ _ _ _ (pair_ne_fst (Ne.symm huvne)),
        alistGet_del_self]
  · show alistGet _ (v, w) = some (some fvu)
    rw [alistGet_del_ne _ _ _ (pair_ne_snd (Ne.symm hwu)),
        alistGet_set_ne _ _ _ _ (pair_ne_fst hwv),
        alistGet_set_self]
  · show alistGet _ (w, u) = some (some fvu)
    rw [alistGet_del_ne _ _ _ (pair_ne_fst (Ne.symm hwv)),
        alistGet_set_self]
  · show alistGet _ (v, u) = none
    rw [alistGet_del_self]
  · obtain ⟨l₁, l₂, hL, hnx, hins⟩ := insertBefore_spec w hvL
    refine ⟨l₁, l₂, hL, hnx, ?_⟩
    show alistGet (alistSet (alistSet m.face fuv _) fvu _) fuv = _
    rw [alistGet_set_ne _ _ _ _ (Ne.symm hfne), alistGet_set_self, hins]
  · obtain ⟨l₁, l₂, hL, hnx, hins⟩ := insertBefore_spec w huL
    refine ⟨l₁, l₂, hL, hnx, ?_⟩
    show alistGet (alistSet (alistSet m.face fuv _) fvu _) fvu = _
    rw [alistGet_set_self, hins]

/-- Witness for C1: splitting the interior edge `(0, 1)` of the
two-triangle mesh at `t = 1/2`. -/
theorem mesh_split_edge_interior_witness :
    ((0 : ℚ) < 1/2 ∧ (1 : ℚ)/2 < 1 ∧ (0 : Nat) ≠ 1 ∧
      alistGet twoTriangleMesh.halfedge (0, 1) = some (some 0) ∧
      alistGet twoTriangleMesh.halfedge (1, 0) = some (some 1) ∧
      alistGet twoTriangleMesh.vertex 0 = some (0, 0, 0) ∧
      alistGet twoTriangleMesh.vertex 1 = some (1, 0, 0) ∧
      alistGet twoTriangleMesh.face 0 = some [0, 1, 2] ∧ (1 : Nat) ∈ [0, 1, 2] ∧
      alistGet twoTriangleMesh.face 1 = some [1, 0, 3] ∧ (0 : Nat) ∈ [1, 0, 3] ∧
      (∀ kv ∈ twoTriangleMesh.vertex, kv.1 < twoTriangleMesh.nextVertexKey)) ∧
    (∃ m', mesh_split_edge twoTriangleMesh 0 1 (1/2) false =
        .ok (m', some twoTriangleMesh.nextVertexKey) ∧
      alistGet m'.vertex twoTriangleMesh.nextVertexKey =
        some ((0 : ℚ) + 1/2 * (1 - 0), (0 : ℚ) + 1/2 * (0 - 0),
              (0 : ℚ) + 1/2 * (0 - 0)) ∧
      alistGet m'.halfedge (0, twoTriangleMesh.nextVertexKey) = some (some 0) ∧
      alistGet m'.halfedge (twoTriangleMesh.nextVertexKey, 1) = some (some 0) ∧
      alistGet m'.halfedge (0, 1) = none ∧
      alistGet m'.halfedge (1, twoTriangleMesh.nextVertexKey) = some (some 1) ∧
      alistGet m'.halfedge (twoTriangleMesh.nextVertexKey, 0) = some (some 1) ∧
      alistGet m'.halfedge (1, 0) = none ∧
      (∃ l₁ l₂, [0, 1, 2] = l₁ ++ 1 :: l₂ ∧ 1 ∉ l₁ ∧
        alistGet m'.face 0 = some (l₁ ++ twoTriangleMesh.nextVertexKey :: 1 :: l₂)) ∧
      (∃ l₁ l₂, [1, 0, 3] = l₁ ++ 0 :: l₂ ∧ 0 ∉ l₁ ∧
        alistGet m'.face 1 = some (l₁ ++ twoTriangleMesh.nextVertexKey :: 0 :: l₂))) :=
  ⟨⟨by norm_num, by norm_num, by decide, by decide, by decide, by decide, by decide,
    by decide, by decide, by decide, by decide, by decide⟩,
   mesh_split_edge_interior twoTriangleMesh 0 1 (1/2) 0 1 [0, 1, 2] [1, 0, 3]
     (0, 0, 0) (1, 0, 0) (by norm_num) (by norm_num) (by decide) (by decide)
     (by decide) (by decide) (by decide) (by decide) (by decide) (by decide)
     (by decide) (by decide) (by decide)⟩

/-- C5 counterexample: in the quadrilateral loop `[0, 1, 2, 3]` the
vertices `3` and `0` are cyclically adjacent (the wrap-around pair of the
last and first loop entries), yet `mesh_split_face` does not reject them:
the source validates only `face.index(u) + 1 == face.index(v)`, so the
call passes both precondition checks and is stopped by neither
`InvalidParameter` rejection; it proceeds into the mutation stage instead
of failing there.  Nothing is asserted about the outcome of that mutation
(it hands the degenerate two-entry sub-loop `[3, 0]` to `add_face`), so
this refutation does not depend on how `add_face` treats such a loop. -/
theorem mesh_split_face_wraparound_not_rejected :
    mesh_split_face quadMesh 0 3 0 ≠
        .error "The split vertices do not belong to the split face." ∧
      mesh_split_face quadMesh 0 3 0 ≠
        .error "The split vertices are neighbours." := by
  have h : (mesh_split_face quadMesh 0 3 0).isOk = true := by decide
  constructor <;> intro he <;> rw [he] at h <;> exact Bool.noConfusion h

/-- C5: amended — the precondition validation of `mesh_split_face` rejects
with the membership `ValueError` exactly when `u` or `v` is not in the face
loop, and with the neighbour `ValueError` exactly when the first index of
`v` is the first index of `u` plus one; adjacency in the descending
direction and the wrap-around pair of the last and first loop entries pass
the validation unrejected.  Both checks precede any mutation, and neither
rejection can arise from the later construction of the sub-faces. -/
theorem mesh_split_face_error_iff (m : Mesh) (fkey u v : Nat) (L : List Nat)
    (hL : alistGet m.face fkey = some L) :
    (mesh_split_face m fkey u v =
        .error "The split vertices do not belong to the split face." ↔
      (u ∉ L ∨ v ∉ L)) ∧
      (mesh_split_face m fkey u v = .error "The split vertices are neighbours." ↔
        (u ∈ L ∧ v ∈ L ∧ L.indexOf u + 1 = L.indexOf v)) := by
  by_cases hm : u ∉ L ∨ v ∉ L
  · have hres : mesh_split_face m fkey u v =
        .error "The split vertices do not belong to the split face." := by
      simp only [mesh_split_face, hL, if_pos hm]
    refine ⟨iff_of_true hres hm, iff_of_false ?_ ?_⟩
    · intro h
      rw [hres] at h
      exact absurd (Except.error.inj h) (by decide)
    · rintro ⟨hu, hv, -⟩
      rcases hm with h | h
      · exact h hu
      · exact h hv
  · have hu : u ∈ L := by
      by_contra h
      exact hm (Or.inl h)
    have hv : v ∈ L := by
      by_contra h
      exact hm (Or.inr h)
    by_cases hij : L.indexOf u + 1 = L.indexOf v
    · have hres : mesh_split_face m fkey u v =
          .error "The split vertices are neighbours." := by
        simp only [mesh_split_face, hL, if_neg hm, if_pos hij]
      refine ⟨iff_of_false ?_ hm, iff_of_true hres ⟨hu, hv, hij⟩⟩
      intro h
      rw [hres] at h
      exact absurd (Except.error.inj h) (by decide)
    · have hok : ∃ r, mesh_split_face m fkey u v = .ok r :=
        ⟨_, by
          simp only [mesh_split_face, hL, if_neg hm, if_neg hij]
          rfl⟩
      obtain ⟨r, hr⟩ := hok
      refine ⟨iff_of_false ?_ hm, iff_of_false ?_ ?_⟩
      · intro h
        rw [hr] at h
        exact Except.noConfusion h
      · intro h
        rw [hr] at h
        exact Except.noConfusion h
      · rintro ⟨-, -, h⟩
        exact hij h

/-- Witness for C5 (amended): on the quadrilateral face, `(0, 1)` is
rejected as neighbours while both vertices are members, and the membership
rejection does not fire. -/
theorem mesh_split_face_error_iff_witness :
    alistGet quadMesh.face 0 = some [0, 1, 2, 3] ∧
      ((mesh_split_face quadMesh 0 0 1 =
          .error "The split vertices do not belong to the split face." ↔
        ((0 : Nat) ∉ [0, 1, 2, 3] ∨ (1 : Nat) ∉ [0, 1, 2, 3])) ∧
        (mesh_split_face quadMesh 0 0 1 =
            .error "The split vertices are neighbours." ↔
          ((0 : Nat) ∈ [0, 1, 2, 3] ∧ (1 : Nat) ∈ [0, 1, 2, 3] ∧
            [0, 1, 2, 3].indexOf 0 + 1 = [0, 1, 2, 3].indexOf 1))) :=
  ⟨by decide, mesh_split_face_error_iff quadMesh 0 0 1 [0, 1, 2, 3] (by decide)⟩

/-- Cutting a loop at positions `i < j`: the rotation starting at `i`
decomposes as `u :: A ++ v :: B`, and the two slices taken by
`mesh_split_face` in the `j > i` branch are `u :: A ++ [v]` and
`v :: B ++ [u]`. -/
theorem loop_cut_decomp_lt {L : List Nat} {u v : Nat} {i j : Nat}
    (hin : i < L.length) (hjn : j < L.length) (hlt : i < j)
    (hLi : L.get ⟨i, hin⟩ = u) (hLj : L.get ⟨j, hjn⟩ = v) :
    ∃ A B, L.rotate i = u :: (A ++ v :: B) ∧
      (L.drop i).take (j + 1 - i) = u :: (A ++ [v]) ∧
      L.drop j ++ L.take (i + 1) = v :: (B ++ [u]) := by
  rw [List.get_eq_getElem] at hLi hLj
  have hdropi : L.drop i = u :: L.drop (i + 1) := by
    rw [List.drop_eq_getElem_cons hin, hLi]
  have hdropj : L.drop j = v :: L.drop (j + 1) := by
    rw [List.drop_eq_getElem_cons hjn, hLj]
  have htakei1 : L.take (i + 1) = L.take i ++ [u] := by
    rw [List.take_succ, List.getElem?_eq_getElem hin, hLi]; rfl
  have hdd : (L.drop (i + 1)).drop (j - i - 1) = v :: L.drop (j + 1) := by
    rw [List.drop_drop]
    have harith : i + 1 + (j - i - 1) = j := by omega
    rw [harith, hdropj]
  have hdropi1 : L.drop (i + 1) =
      (L.drop (i + 1)).take (j - i - 1) ++ (v :: L.drop (j + 1)) := by
    conv_lhs => rw [← List.take_append_drop (j - i - 1) (L.drop (i + 1))]
    rw [hdd]
  refine ⟨(L.drop (i + 1)).take (j - i - 1), L.drop (j + 1) ++ L.take i, ?_, ?_, ?_⟩
  · conv_lhs =>
      rw [List.rotate_eq_drop_append_take (le_of_lt hin), hdropi, hdropi1]
    simp
  · conv_lhs => rw [hdropi]
    have harith : j + 1 - i = (j - i - 1 + 1) + 1 := by omega
    rw [harith, List.take_succ_cons, List.take_succ]
    have hget : (L.drop (i + 1))[j - i - 1]? = some v := by
      rw [List.getElem?_drop]
      have harith2 : i + 1 + (j - i - 1) = j := by omega
      rw [harith2, List.getElem?_eq_getElem hjn, hLj]
    rw [hget]
    rfl
  · conv_lhs => rw [hdropj, htakei1]
    simp

/-- Cutting a loop at positions `j < i`: the rotation starting at `i`
decomposes as `u :: A ++ v :: B`, and the two slices taken by
`mesh_split_face` in the `j < i` branch are `u :: A ++ [v]` and
`v :: B ++ [u]`. -/
theorem loop_cut_decomp_gt {L : List Nat} {u v : Nat} {i j : Nat}
    (hin : i < L.length) (hjn : j < L.length) (hgt : j < i)
    (hLi : L.get ⟨i, hin⟩ = u) (hLj : L.get ⟨j, hjn⟩ = v) :
    ∃ A B, L.rotate i = u :: (A ++ v :: B) ∧
      L.drop i ++ L.take (j + 1) = u :: (A ++ [v]) ∧
      (L.drop j).take (i + 1 - j) = v :: (B ++ [u]) := by
  rw [List.get_eq_getElem] at hLi hLj
  have hdropi : L.drop i = u :: L.drop (i + 1) := by
    rw [List.drop_eq_getElem_cons hin, hLi]
  have hdropj : L.drop j = v :: L.drop (j + 1) := by
    rw [List.drop_eq_getElem_cons hjn, hLj]
  have htakej1 : L.take (j + 1) = L.take j ++ [v] := by
    rw [List.take_succ, List.getElem?_eq_getElem hjn, hLj]; rfl
  obtain ⟨k, hk⟩ : ∃ k, i - j = k + 1 := ⟨i - j - 1, by omega⟩
  have hk2 : i - j - 1 = k := by omega
  have htakei : L.take i = L.take j ++ (v :: (L.drop (j + 1)).take (i - j - 1)) := by
    have h1 : i = j + (i - j) := by omega
    conv_lhs => rw [h1]
    rw [List.take_add, hdropj, hk2, hk, List.take_succ_cons]
  refine ⟨L.drop (i + 1) ++ L.take j, (L.drop (j + 1)).take (i - j - 1), ?_, ?_, ?_⟩
  · conv_lhs =>
      rw [List.rotate_eq_drop_append_take (le_of_lt hin), hdropi, htakei]
    simp
  · conv_lhs => rw [hdropi, htakej1]
    simp
  · conv_lhs => rw [hdropj]
    have harith : i + 1 - j = (i - j - 1 + 1) + 1 := by omega
    rw [harith, List.take_succ_cons, List.take_succ]
    have hget : (L.drop (j + 1))[i - j - 1]? = some u := by
      rw [List.getElem?_drop]
      have harith2 : j + 1 + (i - j - 1) = i := by omega
      rw [harith2, List.getElem?_eq_getElem hin, hLi]
    rw [hget]
    rfl

theorem alistGet_append_none {α : Type u} {β : Type v} [DecidableEq α]
    {l₁ : List (α × β)} (l₂ : List (α × β)) {k : α}
    (h : alistGet l₁ k = none) : alistGet (l₁ ++ l₂) k = alistGet l₂ k := by
  induction l₁ with
  | nil => rfl
  | cons hd tl ih =>
    obtain ⟨a, b⟩ := hd
    by_cases ha : a = k <;> simp_all [alistGet]

/-- C6: splitting a face at two cyclically non-adjacent member vertices
`u` and `v` creates exactly two new faces whose loops are the two
sub-loops of the original cyclic loop cut at `u` and `v` (each sub-loop
has `u` and `v` as its endpoints), deletes the original face key, leaves
all other faces untouched, and returns the two fresh face keys. -/
theorem mesh_split_face_nonadjacent (m : Mesh) (fkey u v : Nat) (L : List Nat)
    (hL : alistGet m.face fkey = some L)
    (hu : u ∈ L) (hv : v ∈ L)
    (hij : L.indexOf u ≠ L.indexOf v)
    (ha1 : (L.indexOf u + 1) % L.length ≠ L.indexOf v)
    (ha2 : (L.indexOf v + 1) % L.length ≠ L.indexOf u)
    (hfresh : ∀ kv ∈ m.face, kv.1 < m.nextFaceKey) :
    ∃ A B m', L.rotate (L.indexOf u) = u :: (A ++ v :: B) ∧
      mesh_split_face m fkey u v = .ok (m', m.nextFaceKey, m.nextFaceKey + 1) ∧
      alistGet m'.face m.nextFaceKey = some (u :: (A ++ [v])) ∧
      alistGet m'.face (m.nextFaceKey + 1) = some (v :: (B ++ [u])) ∧
      alistGet m'.face fkey = none ∧
      (∀ k, k ≠ fkey → k ≠ m.nextFaceKey → k ≠ m.nextFaceKey + 1 →
        alistGet m'.face k = alistGet m.face k) := by
  have hin : L.indexOf u < L.length := List.indexOf_lt_length.mpr hu
  have hjn : L.indexOf v < L.length := List.indexOf_lt_length.mpr hv
  have hLi : L.get ⟨L.indexOf u, hin⟩ = u := List.indexOf_get hin
  have hLj : L.get ⟨L.indexOf v, hjn⟩ = v := List.indexOf_get hjn
  have hmem : ¬(u ∉ L ∨ v ∉ L) := by
    push_neg
    exact ⟨hu, hv⟩
  have hneq : ¬(L.indexOf u + 1 = L.indexOf v) := by
    intro h
    have hlt : L.indexOf u + 1 < L.length := by omega
    exact ha1 (by rw [Nat.mod_eq_of_lt hlt, h])
  have hfk : fkey < m.nextFaceKey := hfresh (fkey, L) (mem_of_alistGet_eq_some hL)
  have hKne : m.nextFaceKey ≠ m.nextFaceKey + 1 := by omega
  rcases Nat.lt_or_ge (L.indexOf u) (L.indexOf v) with hlt | hge
  · obtain ⟨A, B, hrot, hf, hg⟩ := loop_cut_decomp_lt hin hjn hlt hLi hLj
    refine ⟨A, B, ?_⟩
    simp only [mesh_split_face, hL, if_neg hmem, if_neg hneq, if_pos hlt,
      add_face, hf, hg]
    refine ⟨_, hrot, rfl, ?_, ?_, ?_, ?_⟩
    · show alistGet (alistDel ((m.face ++ _) ++ _) fkey) m.nextFaceKey = _
      rw [alistGet_del_ne _ _ _ (Nat.ne_of_lt hfk), List.append_assoc,
        alistGet_append_right _ (fun kv hkv => Nat.ne_of_lt (hfresh kv hkv))]
      simp [alistGet]
    · show alistGet (alistDel ((m.face ++ _) ++ _) fkey) (m.nextFaceKey + 1) = _
      rw [alistGet_del_ne _ _ _ (by omega : fkey ≠ m.nextFaceKey + 1),
        List.append_assoc,
        alistGet_append_right _
          (fun kv hkv => by have := hfresh kv hkv; omega)]
      simp [alistGet, hKne]
    · show alistGet (alistDel ((m.face ++ _) ++ _) fkey) fkey = none
      rw [alistGet_del_self]
    · intro k hk1 hk2 hk3
      show alistGet (alistDel ((m.face ++ _) ++ _) fkey) k = _
      rw [alistGet_del_ne _ _ _ (Ne.symm hk1), List.append_assoc]
      rcases hcase : alistGet m.face k with _ | w
      · rw [alistGet_append_none _ hcase]
        simp [alistGet, Ne.symm hk2, Ne.symm hk3]
      · rw [alistGet_append_left _ hcase]
  · have hgt : L.indexOf v < L.indexOf u := Nat.lt_of_le_of_ne hge hij.symm
    have hnlt : ¬(L.indexOf u < L.indexOf v) := by omega
    obtain ⟨A, B, hrot, hf, hg⟩ := loop_cut_decomp_gt hin hjn hgt hLi hLj
    refine ⟨A, B, ?_⟩
    simp only [mesh_split_face, hL, if_neg hmem, if_neg hneq, if_neg hnlt,
      add_face, hf, hg]
    refine ⟨_, hrot, rfl, ?_, ?_, ?_, ?_⟩
    · show alistGet (alistDel ((m.face ++ _) ++ _) fkey) m.nextFaceKey = _
      rw [alistGet_del_ne _ _ _ (Nat.ne_of_lt hfk), List.append_assoc,
        alistGet_append_right _ (fun kv hkv => Nat.ne_of_lt (hfresh kv hkv))]
      simp [alistGet]
    · show alistGet (alistDel ((m.face ++ _) ++ _) fkey) (m.nextFaceKey + 1) = _
      rw [alistGet_del_ne _ _ _ (by omega : fkey ≠ m.nextFaceKey + 1),
        List.append_assoc,
        alistGet_append_right _
          (fun kv hkv => by have := hfresh kv hkv; omega)]
      simp [alistGet, hKne]
    · show alistGet (alistDel ((m.face ++ _) ++ _) fkey) fkey = none
      rw [alistGet_del_self]
    · intro k hk1 hk2 hk3
      show alistGet (alistDel ((m.face ++ _) ++ _) fkey) k = _
      rw [alistGet_del_ne _ _ _ (Ne.symm hk1), List.append_assoc]
      rcases hcase : alistGet m.face k with _ | w
      · rw [alistGet_append_none _ hcase]
        simp [alistGet, Ne.symm hk2, Ne.symm hk3]
      · rw [alistGet_append_left _ hcase]

/-- Witness for C6: splitting the quadrilateral `[0, 1, 2, 3]` at the
diagonal `(0, 2)`. -/
theorem mesh_split_face_nonadjacent_witness :
    (alistGet quadMesh.face 0 = some [0, 1, 2, 3] ∧
      (0 : Nat) ∈ [0, 1, 2, 3] ∧ (2 : Nat) ∈ [0, 1, 2, 3] ∧
      [0, 1, 2, 3].indexOf 0 ≠ [0, 1, 2, 3].indexOf 2 ∧
      ([0, 1, 2, 3].indexOf 0 + 1) % [0, 1, 2, 3].length ≠ [0, 1, 2, 3].indexOf 2 ∧
      ([0, 1, 2, 3].indexOf 2 + 1) % [0, 1, 2, 3].length ≠ [0, 1, 2, 3].indexOf 0 ∧
      (∀ kv ∈ quadMesh.face, kv.1 < quadMesh.nextFaceKey)) ∧
    (∃ A B m', [0, 1, 2, 3].rotate ([0, 1, 2, 3].indexOf 0) = 0 :: (A ++ 2 :: B) ∧
      mesh_split_face quadMesh 0 0 2 = .ok (m', quadMesh.nextFaceKey, quadMesh.nextFaceKey + 1) ∧
      alistGet m'.face quadMesh.nextFaceKey = some (0 :: (A ++ [2])) ∧
      alistGet m'.face (quadMesh.nextFaceKey + 1) = some (2 :: (B ++ [0])) ∧
      alistGet m'.face 0 = none ∧
      (∀ k, k ≠ 0 → k ≠ quadMesh.nextFaceKey → k ≠ quadMesh.nextFaceKey + 1 →
        alistGet m'.face k = alistGet quadMesh.face k)) :=
  ⟨⟨by decide, by decide, by decide, by decide, by decide, by decide, by decide⟩,
   mesh_split_face_nonadjacent quadMesh 0 0 2 [0, 1, 2, 3] (by decide) (by decide)
     (by decide) (by decide) (by decide) (by decide) (by decide)⟩

/-- In a triangle whose loop is a rotation of `[a, b, o]`, the loop entry
preceding `a` (Python `face[face.index(a) - 1]`, with `-1` wrapping to the
end) is the opposite vertex `o`, and `a` is a member. -/
theorem opposite_of_triangle (L : List Nat) {a b o : Nat}
    (hL : L = [a, b, o] ∨ L = [o, a, b] ∨ L = [b, o, a])
    (h1 : b ≠ a) (h2 : o ≠ a) :
    L.getD ((L.indexOf a + L.length - 1) % L.length) 0 = o ∧ a ∈ L := by
  rcases hL with h | h | h <;> subst h <;>
    refine ⟨?_, by simp⟩ <;> simp [List.indexOf_cons, h1, h2]

/-- `addLoopHalfedges` only writes the pair keys of the loop and their
swaps: any other key keeps its binding. -/
theorem alistGet_addLoopHalfedges_notmem (f : Nat) (q : Nat × Nat) :
    ∀ (ps : List (Nat × Nat)) (he : List ((Nat × Nat) × Option Nat)),
    (∀ p ∈ ps, p ≠ q ∧ (p.2, p.1) ≠ q) →
    alistGet (addLoopHalfedges he f ps) q = alistGet he q := by
  intro ps
  induction ps with
  | nil => intro he _; rfl
  | cons hd rest ih =>
    intro he h
    obtain ⟨a, b⟩ := hd
    have hne1 : (a, b) ≠ q := (h (a, b) (by simp)).1
    have hne2 : (b, a) ≠ q := (h (a, b) (by simp)).2
    have hrest := fun p hp => h p (List.mem_cons_of_mem _ hp)
    show alistGet (addLoopHalfedges _ f rest) q = _
    rw [ih _ hrest]
    by_cases hc : alistGet (alistSet he (a, b) (some f)) (b, a) = none
    · simp only [if_pos hc]
      rw [alistGet_set_ne _ _ _ _ hne2, alistGet_set_ne _ _ _ _ hne1]
    · simp only [if_neg hc]
      rw [alistGet_set_ne _ _ _ _ hne1]

/-- A key that is already present and is not itself one of the loop's
directed pairs keeps its binding under `addLoopHalfedges`: the
reverse-entry write only fires on absent keys. -/
theorem alistGet_addLoopHalfedges_present (f : Nat) (q : Nat × Nat) :
    ∀ (ps : List (Nat × Nat)) (he : List ((Nat × Nat) × Option Nat)),
    (∀ p ∈ ps, p ≠ q) → (alistGet he q).isSome →
    alistGet (addLoopHalfedges he f ps) q = alistGet he q := by
  intro ps
  induction ps with
  | nil => intro he _ _; rfl
  | cons hd rest ih =>
    intro he h hpres
    obtain ⟨a, b⟩ := hd
    have hne1 : (a, b) ≠ q := h (a, b) (by simp)
    have hrest := fun p hp => h p (List.mem_cons_of_mem _ hp)
    have hstep1 : alistGet (alistSet he (a, b) (some f)) q = alistGet he q :=
      alistGet_set_ne _ _ _ _ hne1
    show alistGet (addLoopHalfedges _ f rest) q = _
    by_cases hba : (b, a) = q
    · have hc : ¬ alistGet (alistSet he (a, b) (some f)) (b, a) = none := by
        rw [hba, hstep1]
        intro hnone
        rw [hnone] at hpres
        exact Bool.noConfusion hpres
      simp only [if_neg hc]
      rw [ih _ hrest (by rw [hstep1]; exact hpres), hstep1]
    · by_cases hc : alistGet (alistSet he (a, b) (some f)) (b, a) = none
      · simp only [if_pos hc]
        have hstep2 : alistGet (alistSet (alistSet he (a, b) (some f)) (b, a) none) q
            = alistGet he q := by
          rw [alistGet_set_ne _ _ _ _ hba, hstep1]
        rw [ih _ hrest (by rw [hstep2]; exact hpres), hstep2]
      · simp only [if_neg hc]
        rw [ih _ hrest (by rw [hstep1]; exact hpres), hstep1]

/-- Running one face side of `trimesh_split_edge` on a destructured mesh:
the old triangle (a rotation of `[a, b, o]`) is deleted, the triangles
`[a, w, o]` and `[w, b, o]` are registered under the two next face keys,
and the directed half-edge `(a, b)` is removed. -/
theorem trimeshSideStep_some (V : List (Nat × Point)) (F : List (Nat × List Nat))
    (H : List ((Nat × Nat) × Option Nat)) (nV nF : Nat)
    (a b w fk : Nat) (L : List Nat) (o : Nat)
    (hface : alistGet F fk = some L)
    (hL : L = [a, b, o] ∨ L = [o, a, b] ∨ L = [b, o, a])
    (h1 : b ≠ a) (h2 : o ≠ a) :
    trimeshSideStep ⟨V, F, H, nV, nF⟩ a b w (some fk) = .ok
      ⟨V, alistDel ((F ++ [(nF, [a, w, o])]) ++ [(nF + 1, [w, b, o])]) fk,
        alistDel (addLoopHalfedges (addLoopHalfedges H nF
          (cyclicPairs [a, w, o])) (nF + 1) (cyclicPairs [w, b, o])) (a, b),
        nV, nF + 1 + 1⟩ := by
  obtain ⟨ho, hmem⟩ := opposite_of_triangle L hL h1 h2
  show (match alistGet F fk with
    | none => Except.error "KeyError: face"
    | some L =>
      if a ∈ L then
        let o := L.getD ((L.indexOf a + L.length - 1) % L.length) 0
        let m1 := (add_face ⟨V, F, H, nV, nF⟩ [a, w, o]).1
        let m2 := (add_face m1 [w, b, o]).1
        Except.ok { m2 with halfedge := alistDel m2.halfedge (a, b),
                            face := alistDel m2.face fk }
      else Except.error "ValueError: a is not in list") = _
  rw [hface]
  simp only [if_pos hmem]
  rw [ho]
  dsimp only [add_face]

theorem cyclicPairs_triple (a b c : Nat) :
    cyclicPairs [a, b, c] = [(a, b), (b, c), (c, a)] := rfl

/-- The boundary side of `trimesh_split_edge` leaves every half-edge key
other than `(a, w)`, `(w, b)` and `(a, b)` unchanged. -/
theorem sideNone_other (he : List ((Nat × Nat) × Option Nat)) (a b w : Nat)
    (q : Nat × Nat) (h1 : (a, w) ≠ q) (h2 : (w, b) ≠ q) (h3 : (a, b) ≠ q) :
    alistGet (alistDel (alistSet (alistSet he (a, w) none) (w, b) none) (a, b)) q
      = alistGet he q := by
  rw [alistGet_del_ne _ _ _ h3, alistGet_set_ne _ _ _ _ h2,
    alistGet_set_ne _ _ _ _ h1]

/-- The boundary side of `trimesh_split_edge` installs `(a, w)` and
`(w, b)` as boundary entries and removes `(a, b)`. -/
theorem sideNone_at (he : List ((Nat × Nat) × Option Nat)) (a b w : Nat)
    (hab : a ≠ b) (hwa : w ≠ a) (hwb : w ≠ b) :
    alistGet (alistDel (alistSet (alistSet he (a, w) none) (w, b) none) (a, b))
        (a, w) = some none ∧
    alistGet (alistDel (alistSet (alistSet he (a, w) none) (w, b) none) (a, b))
        (w, b) = some none ∧
    alistGet (alistDel (alistSet (alistSet he (a, w) none) (w, b) none) (a, b))
        (a, b) = none := by
  refine ⟨?_, ?_, ?_⟩
  · rw [alistGet_del_ne _ _ _ (pair_ne_snd (Ne.symm hwb)),
      alistGet_set_ne _ _ _ _ (pair_ne_fst hwa)]
    exact alistGet_set_self _ _ _
  · rw [alistGet_del_ne _ _ _ (pair_ne_fst (Ne.symm hwa))]
    exact alistGet_set_self _ _ _
  · exact alistGet_del_self _ _

/-- The face side of `trimesh_split_edge` leaves a half-edge key that is
present and distinct from all six directed pairs of the two new triangles
and from the removed key `(a, b)` unchanged. -/
theorem sideSome_he_present (he : List ((Nat × Nat) × Option Nat)) (K : Nat)
    (a b w o : Nat) (q : Nat × Nat)
    (hq1 : ∀ p ∈ [(a, w), (w, o), (o, a)], p ≠ q)
    (hq2 : ∀ p ∈ [(w, b), (b, o), (o, w)], p ≠ q)
    (hab : (a, b) ≠ q) (hpres : (alistGet he q).isSome) :
    alistGet (alistDel (addLoopHalfedges (addLoopHalfedges he K
      (cyclicPairs [a, w, o])) (K + 1) (cyclicPairs [w, b, o])) (a, b)) q
      = alistGet he q := by
  rw [alistGet_del_ne _ _ _ hab, cyclicPairs_triple, cyclicPairs_triple,
    alistGet_addLoopHalfedges_present _ _ _ _ hq2,
    alistGet_addLoopHalfedges_present _ _ _ _ hq1 hpres]
  rw [alistGet_addLoopHalfedges_present _ _ _ _ hq1 hpres]
  exact hpres

/-- The face side of `trimesh_split_edge` leaves a half-edge key that is
distinct from all six directed pairs of the two new triangles, their
reverses, and the removed key `(a, b)` unchanged. -/
theorem sideSome_he_other (he : List ((Nat × Nat) × Option Nat)) (K : Nat)
    (a b w o : Nat) (q : Nat × Nat)
    (hq1 : ∀ p ∈ [(a, w), (w, o), (o, a)], p ≠ q ∧ (p.2, p.1) ≠ q)
    (hq2 : ∀ p ∈ [(w, b), (b, o), (o, w)], p ≠ q ∧ (p.2, p.1) ≠ q)
    (hab : (a, b) ≠ q) :
    alistGet (alistDel (addLoopHalfedges (addLoopHalfedges he K
      (cyclicPairs [a, w, o])) (K + 1) (cyclicPairs [w, b, o])) (a, b)) q
      = alistGet he q := by
  rw [alistGet_del_ne _ _ _ hab, cyclicPairs_triple, cyclicPairs_triple,
    alistGet_addLoopHalfedges_notmem _ _ _ _ hq2,
    alistGet_addLoopHalfedges_notmem _ _ _ _ hq1]

theorem forall_mem_triple {γ : Type u} {P : γ → Prop} {x y z : γ}
    (hx : P x) (hy : P y) (hz : P z) : ∀ p ∈ [x, y, z], P p := by
  intro p hp
  rcases List.mem_cons.mp hp with rfl | hp
  · exact hx
  rcases List.mem_cons.mp hp with rfl | hp
  · exact hy
  rcases List.mem_cons.mp hp with rfl | hp
  · exact hz
  · cases hp

/-- After deleting `fk` from a face table extended with two fresh keys
`K` and `K + 1`, the old key is gone and the two new faces are found. -/
theorem faceTable_after_two_adds (F : List (Nat × List Nat)) (fk K : Nat)
    (A B : List Nat) (hfk : fk < K) (hkeys : ∀ kv ∈ F, kv.1 < K) :
    alistGet (alistDel ((F ++ [(K, A)]) ++ [(K + 1, B)]) fk) fk = none ∧
    alistGet (alistDel ((F ++ [(K, A)]) ++ [(K + 1, B)]) fk) K = some A ∧
    alistGet (alistDel ((F ++ [(K, A)]) ++ [(K + 1, B)]) fk) (K + 1) = some B := by
  refine ⟨alistGet_del_self _ _, ?_, ?_⟩
  · have hinner : alistGet (F ++ [(K, A)]) K = some A := by
      rw [alistGet_append_right _ (fun kv hkv => Nat.ne_of_lt (hkeys kv hkv))]
      simp [alistGet]
    rw [alistGet_del_ne _ _ _ (Nat.ne_of_lt hfk), alistGet_append_left _ hinner]
  · have h1 : ∀ kv ∈ F ++ [(K, A)], kv.1 ≠ K + 1 := by
      intro kv hkv
      rcases List.mem_append.mp hkv with h | h
      · have := hkeys kv h
        omega
      · obtain rfl := List.mem_singleton.mp h
        dsimp only
        omega
    rw [alistGet_del_ne _ _ _ (by omega : fk ≠ K + 1), alistGet_append_right _ h1]
    simp [alistGet]

/-- Deleting `fk2` from a face table extended with two fresh keys `K` and
`K + 1` does not disturb any other key. -/
theorem faceTable_preserve (F : List (Nat × List Nat)) (fk2 K : Nat)
    (A B : List Nat) (k : Nat)
    (hne : fk2 ≠ k) (hkA : K ≠ k) (hkB : K + 1 ≠ k) :
    alistGet (alistDel ((F ++ [(K, A)]) ++ [(K + 1, B)]) fk2) k = alistGet F k := by
  rw [alistGet_del_ne _ _ _ hne]
  rcases h : alistGet F k with _ | w
  · rw [alistGet_append_none _ (by rw [alistGet_append_none _ h]; simp [alistGet, hkA])]
    simp [alistGet, hkB]
  · rw [alistGet_append_left _ (alistGet_append_left _ h)]

section

attribute [local irreducible] addLoopHalfedges

set_option maxHeartbeats 16000000 in
/-- C7: splitting an edge of a triangle mesh that is permitted to split
(interior, or any edge with `allow_boundary = true`) returns the fresh
vertex key `w`; on each directed side carrying a face, the adjacent
triangle is deleted and replaced by the two triangles `[u, w, o]` and
`[w, v, o]` (respectively `[v, w, o]` and `[w, u, o]`) through the shared
opposite vertex `o`, preserving the winding of the original loop; on a
side with no face, the two boundary half-edges `(u, w)` and `(w, v)`
(respectively `(v, w)` and `(w, u)`) are installed with the no-face
sentinel and the old directed half-edge is removed. -/
theorem trimesh_split_edge_spec
    (m : Mesh) (u v : Nat) (t : ℚ) (ab : Bool)
    (fuv fvu : Option Nat) (Luv Lvu : List Nat) (ouv ovu : Nat) (pu pv : Point)
    (ht0 : 0 < t) (ht1 : t < 1) (huvne : u ≠ v)
    (huv : alistGet m.halfedge (u, v) = some fuv)
    (hvu : alistGet m.halfedge (v, u) = some fvu)
    (hpu : alistGet m.vertex u = some pu)
    (hpv : alistGet m.vertex v = some pv)
    (hperm : ab = true ∨ (fuv ≠ none ∧ fvu ≠ none))
    (hLuv : ∀ fk, fuv = some fk → alistGet m.face fk = some Luv ∧
      (Luv = [u, v, ouv] ∨ Luv = [ouv, u, v] ∨ Luv = [v, ouv, u]))
    (hLvu : ∀ fk, fvu = some fk → alistGet m.face fk = some Lvu ∧
      (Lvu = [v, u, ovu] ∨ Lvu = [ovu, v, u] ∨ Lvu = [u, ovu, v]))
    (hfkne : ∀ fk fk2, fuv = some fk → fvu = some fk2 → fk ≠ fk2)
    (houv_u : ouv ≠ u) (houv_v : ouv ≠ v)
    (hovu_u : ovu ≠ u) (hovu_v : ovu ≠ v)
    (hwo1 : ouv < m.nextVertexKey) (hwo2 : ovu < m.nextVertexKey)
    (hfreshV : ∀ kv ∈ m.vertex, kv.1 < m.nextVertexKey)
    (hfreshF : ∀ kv ∈ m.face, kv.1 < m.nextFaceKey) :
    ∃ m', trimesh_split_edge m u v t ab = .ok (m', some m.nextVertexKey) ∧
      (fuv = none →
        alistGet m'.halfedge (u, m.nextVertexKey) = some none ∧
        alistGet m'.halfedge (m.nextVertexKey, v) = some none ∧
        alistGet m'.halfedge (u, v) = none) ∧
      (∀ fk, fuv = some fk →
        alistGet m'.face fk = none ∧
        ∃ k1 k2, k1 ≠ k2 ∧
          alistGet m'.face k1 = some [u, m.nextVertexKey, ouv] ∧
          alistGet m'.face k2 = some [m.nextVertexKey, v, ouv]) ∧
      (fvu = none →
        alistGet m'.halfedge (v, m.nextVertexKey) = some none ∧
        alistGet m'.halfedge (m.nextVertexKey, u) = some none ∧
        alistGet m'.halfedge (v, u) = none) ∧
      (∀ fk, fvu = some fk →
        alistGet m'.face fk = none ∧
        ∃ k1 k2, k1 ≠ k2 ∧
          alistGet m'.face k1 = some [v, m.nextVertexKey, ovu] ∧
          alistGet m'.face k2 = some [m.nextVertexKey, u, ovu]) := by
  have h1 : ¬ t ≤ 0 := not_le.mpr ht0
  have h2 : ¬ (1 : ℚ) ≤ t := not_le.mpr ht1
  have hwu : m.nextVertexKey ≠ u :=
    Nat.ne_of_gt (hfreshV (u, pu) (mem_of_alistGet_eq_some hpu))
  have hwv : m.nextVertexKey ≠ v :=
    Nat.ne_of_gt (hfreshV (v, pv) (mem_of_alistGet_eq_some hpv))
  have houvw : ouv ≠ m.nextVertexKey := Nat.ne_of_lt hwo1
  have hovuw : ovu ≠ m.nextVertexKey := Nat.ne_of_lt hwo2
  rcases fuv with _ | fkuv
  · rcases fvu with _ | fkvu
    · -- both sides are boundary sides
      have hab : ab = true := by
        rcases hperm with h | ⟨hx, _⟩
        · exact h
        · exact absurd rfl hx
      subst hab
      have hrun : trimesh_split_edge m u v t true = .ok
          ({ vertex := m.vertex ++ [(m.nextVertexKey, (pu.1 + t * (pv.1 - pu.1),
                pu.2.1 + t * (pv.2.1 - pu.2.1), pu.2.2 + t * (pv.2.2 - pu.2.2)))],
             face := m.face,
             halfedge := alistDel (alistSet (alistSet
               (alistDel (alistSet (alistSet m.halfedge (u, m.nextVertexKey) none)
                 (m.nextVertexKey, v) none) (u, v))
               (v, m.nextVertexKey) none) (m.nextVertexKey, u) none) (v, u),
             nextVertexKey := m.nextVertexKey + 1,
             nextFaceKey := m.nextFaceKey }, some m.nextVertexKey) := by
        simp only [trimesh_split_edge, if_neg h1, if_neg h2, huv, hvu,
          Option.isNone_none, Bool.not_true, Bool.false_and, Bool.false_eq_true,
          if_false, edge_point, hpu, hpv, add_vertex, trimeshSideStep]
      refine ⟨_, hrun, ?_, ?_, ?_, ?_⟩
      · intro _
        refine ⟨?_, ?_, ?_⟩
        · show alistGet (alistDel (alistSet (alistSet _ (v, m.nextVertexKey) none)
            (m.nextVertexKey, u) none) (v, u)) (u, m.nextVertexKey) = some none
          rw [sideNone_other _ v u m.nextVertexKey _ (pair_ne_fst (Ne.symm huvne))
            (pair_ne_fst hwu) (pair_ne_fst (Ne.symm huvne))]
          exact (sideNone_at m.halfedge u v m.nextVertexKey huvne hwu hwv).1
        · show alistGet (alistDel (alistSet (alistSet _ (v, m.nextVertexKey) none)
            (m.nextVertexKey, u) none) (v, u)) (m.nextVertexKey, v) = some none
          rw [sideNone_other _ v u m.nextVertexKey _ (pair_ne_fst (Ne.symm hwv))
            (pair_ne_snd huvne) (pair_ne_fst (Ne.symm hwv))]
          exact (sideNone_at m.halfedge u v m.nextVertexKey huvne hwu hwv).2.1
        · show alistGet (alistDel (alistSet (alistSet _ (v, m.nextVertexKey) none)
            (m.nextVertexKey, u) none) (v, u)) (u, v) = none
          rw [sideNone_other _ v u m.nextVertexKey _ (pair_ne_fst (Ne.symm huvne))
            (pair_ne_fst hwu) (pair_ne_fst (Ne.symm huvne))]
          exact (sideNone_at m.halfedge u v m.nextVertexKey huvne hwu hwv).2.2
      · intro fk hfk
        exact Option.noConfusion hfk
      · intro _
        exact sideNone_at _ v u m.nextVertexKey (Ne.symm huvne) hwv hwu
      · intro fk hfk
        exact Option.noConfusion hfk
    · -- UV boundary side, VU face side
      have hab : ab = true := by
        rcases hperm with h | ⟨hx, _⟩
        · exact h
        · exact absurd rfl hx
      subst hab
      obtain ⟨hfacevu, hrotvu⟩ := hLvu fkvu rfl
      have hfkvu_lt : fkvu < m.nextFaceKey :=
        hfreshF (fkvu, Lvu) (mem_of_alistGet_eq_some hfacevu)
      have UVeq0 : trimeshSideStep
          { vertex := m.vertex ++ [(m.nextVertexKey, (pu.1 + t * (pv.1 - pu.1),
              pu.2.1 + t * (pv.2.1 - pu.2.1), pu.2.2 + t * (pv.2.2 - pu.2.2)))],
            face := m.face,
            halfedge := m.halfedge,
            nextVertexKey := m.nextVertexKey + 1,
            nextFaceKey := m.nextFaceKey }
          u v m.nextVertexKey none = .ok
          { vertex := m.vertex ++ [(m.nextVertexKey, (pu.1 + t * (pv.1 - pu.1),
              pu.2.1 + t * (pv.2.1 - pu.2.1), pu.2.2 + t * (pv.2.2 - pu.2.2)))],
            face := m.face,
            halfedge := alistDel (alistSet (alistSet m.halfedge
              (u, m.nextVertexKey) none) (m.nextVertexKey, v) none) (u, v),
            nextVertexKey := m.nextVertexKey + 1,
            nextFaceKey := m.nextFaceKey } := rfl
      have VUeq := trimeshSideStep_some
        (m.vertex ++ [(m.nextVertexKey, (pu.1 + t * (pv.1 - pu.1),
          pu.2.1 + t * (pv.2.1 - pu.2.1), pu.2.2 + t * (pv.2.2 - pu.2.2)))])
        m.face
        (alistDel (alistSet (alistSet m.halfedge
          (u, m.nextVertexKey) none) (m.nextVertexKey, v) none) (u, v))
        (m.nextVertexKey + 1) m.nextFaceKey
        v u m.nextVertexKey fkvu Lvu ovu hfacevu hrotvu huvne hovu_v
      have hrun : trimesh_split_edge m u v t true = .ok
          ({ vertex := m.vertex ++ [(m.nextVertexKey, (pu.1 + t * (pv.1 - pu.1),
                pu.2.1 + t * (pv.2.1 - pu.2.1), pu.2.2 + t * (pv.2.2 - pu.2.2)))],
             face := alistDel ((m.face ++
               [(m.nextFaceKey, [v, m.nextVertexKey, ovu])]) ++
               [(m.nextFaceKey + 1, [m.nextVertexKey, u, ovu])]) fkvu,
             halfedge := alistDel (addLoopHalfedges (addLoopHalfedges
               (alistDel (alistSet (alistSet m.halfedge
                 (u, m.nextVertexKey) none) (m.nextVertexKey, v) none) (u, v))
               m.nextFaceKey (cyclicPairs [v, m.nextVertexKey, ovu]))
               (m.nextFaceKey + 1) (cyclicPairs [m.nextVertexKey, u, ovu])) (v, u),
             nextVertexKey := m.nextVertexKey + 1,
             nextFaceKey := m.nextFaceKey + 1 + 1 }, some m.nextVertexKey) := by
        simp only [trimesh_split_edge, if_neg h1, if_neg h2, huv, hvu,
          Option.isNone_none, Option.isNone_some, Bool.not_true, Bool.false_and,
          Bool.false_eq_true, if_false, edge_point, hpu, hpv, add_vertex,
          UVeq0, VUeq]
      refine ⟨_, hrun, ?_, ?_, ?_, ?_⟩
      · -- the UV boundary entries survive the VU retriangulation
        intro _
        have hbase := sideNone_at m.halfedge u v m.nextVertexKey huvne hwu hwv
        refine ⟨?_, ?_, ?_⟩
        · show alistGet (alistDel (addLoopHalfedges (addLoopHalfedges _
            m.nextFaceKey (cyclicPairs [v, m.nextVertexKey, ovu]))
            (m.nextFaceKey + 1) (cyclicPairs [m.nextVertexKey, u, ovu])) (v, u))
            (u, m.nextVertexKey) = some none
          rw [sideSome_he_present _ m.nextFaceKey v u m.nextVertexKey ovu _
            (forall_mem_triple (pair_ne_fst (Ne.symm huvne))
              (pair_ne_fst hwu) (pair_ne_snd (Ne.symm hwv)))
            (forall_mem_triple (pair_ne_fst hwu)
              (pair_ne_snd hovuw) (pair_ne_fst hovu_u))
            (pair_ne_fst (Ne.symm huvne))
            (by rw [hbase.1]; rfl)]
          exact hbase.1
        · show alistGet (alistDel (addLoopHalfedges (addLoopHalfedges _
            m.nextFaceKey (cyclicPairs [v, m.nextVertexKey, ovu]))
            (m.nextFaceKey + 1) (cyclicPairs [m.nextVertexKey, u, ovu])) (v, u))
            (m.nextVertexKey, v) = some none
          rw [sideSome_he_present _ m.nextFaceKey v u m.nextVertexKey ovu _
            (forall_mem_triple (pair_ne_fst (Ne.symm hwv))
              (pair_ne_snd hovu_v) (pair_ne_fst hovuw))
            (forall_mem_triple (pair_ne_snd huvne)
              (pair_ne_fst (Ne.symm hwu)) (pair_ne_snd hwv))
            (pair_ne_fst (Ne.symm hwv))
            (by rw [hbase.2.1]; rfl)]
          exact hbase.2.1
        · show alistGet (alistDel (addLoopHalfedges (addLoopHalfedges _
            m.nextFaceKey (cyclicPairs [v, m.nextVertexKey, ovu]))
            (m.nextFaceKey + 1) (cyclicPairs [m.nextVertexKey, u, ovu])) (v, u))
            (u, v) = none
          rw [sideSome_he_other _ m.nextFaceKey v u m.nextVertexKey ovu _
            (forall_mem_triple
              ⟨pair_ne_fst (Ne.symm huvne), pair_ne_fst hwu⟩
              ⟨pair_ne_fst hwu, pair_ne_fst hovu_u⟩
              ⟨pair_ne_fst hovu_u, pair_ne_fst (Ne.symm huvne)⟩)
            (forall_mem_triple
              ⟨pair_ne_fst hwu, pair_ne_snd hwv⟩
              ⟨pair_ne_snd hovu_v, pair_ne_fst hovu_u⟩
              ⟨pair_ne_fst hovu_u, pair_ne_fst hwu⟩)
            (pair_ne_fst (Ne.symm huvne))]
          exact hbase.2.2
      · intro fk hfk
        exact Option.noConfusion hfk
      · intro h
        exact Option.noConfusion h
      · -- the VU face conclusions
        intro fk hfk
        obtain rfl : fkvu = fk := Option.some.inj hfk
        have hmain := faceTable_after_two_adds m.face fkvu m.nextFaceKey
          [v, m.nextVertexKey, ovu] [m.nextVertexKey, u, ovu] hfkvu_lt hfreshF
        exact ⟨hmain.1, m.nextFaceKey, m.nextFaceKey + 1, by omega,
          hmain.2.1, hmain.2.2⟩
  · rcases fvu with _ | fkvu
    · -- UV face side, VU boundary side
      have hab : ab = true := by
        rcases hperm with h | ⟨_, hx⟩
        · exact h
        · exact absurd rfl hx
      subst hab
      obtain ⟨hfaceuv, hrotuv⟩ := hLuv fkuv rfl
      have hfkuv_lt : fkuv < m.nextFaceKey :=
        hfreshF (fkuv, Luv) (mem_of_alistGet_eq_some hfaceuv)
      have UVeq := trimeshSideStep_some
        (m.vertex ++ [(m.nextVertexKey, (pu.1 + t * (pv.1 - pu.1),
          pu.2.1 + t * (pv.2.1 - pu.2.1), pu.2.2 + t * (pv.2.2 - pu.2.2)))])
        m.face m.halfedge (m.nextVertexKey + 1) m.nextFaceKey
        u v m.nextVertexKey fkuv Luv ouv hfaceuv hrotuv (Ne.symm huvne) houv_u
      have hrun : trimesh_split_edge m u v t true = .ok
          ({ vertex := m.vertex ++ [(m.nextVertexKey, (pu.1 + t * (pv.1 - pu.1),
                pu.2.1 + t * (pv.2.1 - pu.2.1), pu.2.2 + t * (pv.2.2 - pu.2.2)))],
             face := alistDel ((m.face ++
               [(m.nextFaceKey, [u, m.nextVertexKey, ouv])]) ++
               [(m.nextFaceKey + 1, [m.nextVertexKey, v, ouv])]) fkuv,
             halfedge := alistDel (alistSet (alistSet
               (alistDel (addLoopHalfedges (addLoopHalfedges m.halfedge
                 m.nextFaceKey (cyclicPairs [u, m.nextVertexKey, ouv]))
                 (m.nextFaceKey + 1) (cyclicPairs [m.nextVertexKey, v, ouv])) (u, v))
               (v, m.nextVertexKey) none) (m.nextVertexKey, u) none) (v, u),
             nextVertexKey := m.nextVertexKey + 1,
             nextFaceKey := m.nextFaceKey + 1 + 1 }, some m.nextVertexKey) := by
        simp only [trimesh_split_edge, if_neg h1, if_neg h2, huv, hvu,
          Option.isNone_none, Option.isNone_some, Bool.not_true, Bool.false_and,
          Bool.false_eq_true, if_false, edge_point, hpu, hpv, add_vertex, UVeq]
        simp only [trimeshSideStep]
      refine ⟨_, hrun, ?_, ?_, ?_, ?_⟩
      · intro h
        exact Option.noConfusion h
      · -- the UV face conclusions; the VU boundary step leaves faces alone
        intro fk hfk
        obtain rfl : fkuv = fk := Option.some.inj hfk
        have hmain := faceTable_after_two_adds m.face fkuv m.nextFaceKey
          [u, m.nextVertexKey, ouv] [m.nextVertexKey, v, ouv] hfkuv_lt hfreshF
        exact ⟨hmain.1, m.nextFaceKey, m.nextFaceKey + 1, by omega,
          hmain.2.1, hmain.2.2⟩
      · -- the VU boundary entries are installed on top of the UV state
        intro _
        exact sideNone_at _ v u m.nextVertexKey (Ne.symm huvne) hwv hwu
      · intro fk hfk
        exact Option.noConfusion hfk
    · -- both sides are face sides
      obtain ⟨hfaceuv, hrotuv⟩ := hLuv fkuv rfl
      obtain ⟨hfacevu, hrotvu⟩ := hLvu fkvu rfl
      have hfkuv_lt : fkuv < m.nextFaceKey :=
        hfreshF (fkuv, Luv) (mem_of_alistGet_eq_some hfaceuv)
      have hfkvu_lt : fkvu < m.nextFaceKey :=
        hfreshF (fkvu, Lvu) (mem_of_alistGet_eq_some hfacevu)
      have hfne : fkuv ≠ fkvu := hfkne fkuv fkvu rfl rfl
      have UVeq := trimeshSideStep_some
        (m.vertex ++ [(m.nextVertexKey, (pu.1 + t * (pv.1 - pu.1),
          pu.2.1 + t * (pv.2.1 - pu.2.1), pu.2.2 + t * (pv.2.2 - pu.2.2)))])
        m.face m.halfedge (m.nextVertexKey + 1) m.nextFaceKey
        u v m.nextVertexKey fkuv Luv ouv hfaceuv hrotuv (Ne.symm huvne) houv_u
      have hface2 : alistGet (alistDel ((m.face ++
          [(m.nextFaceKey, [u, m.nextVertexKey, ouv])]) ++
          [(m.nextFaceKey + 1, [m.nextVertexKey, v, ouv])]) fkuv) fkvu
          = some Lvu := by
        rw [alistGet_del_ne _ _ _ hfne,
          alistGet_append_left _ (alistGet_append_left _ hfacevu)]
      have VUeq := trimeshSideStep_some
        (m.vertex ++ [(m.nextVertexKey, (pu.1 + t * (pv.1 - pu.1),
          pu.2.1 + t * (pv.2.1 - pu.2.1), pu.2.2 + t * (pv.2.2 - pu.2.2)))])
        (alistDel ((m.face ++
          [(m.nextFaceKey, [u, m.nextVertexKey, ouv])]) ++
          [(m.nextFaceKey + 1, [m.nextVertexKey, v, ouv])]) fkuv)
        (alistDel (addLoopHalfedges (addLoopHalfedges m.halfedge
          m.nextFaceKey (cyclicPairs [u, m.nextVertexKey, ouv]))
          (m.nextFaceKey + 1) (cyclicPairs [m.nextVertexKey, v, ouv])) (u, v))
        (m.nextVertexKey + 1) (m.nextFaceKey + 1 + 1)
        v u m.nextVertexKey fkvu Lvu ovu hface2 hrotvu huvne hovu_v
      have hF2keys : ∀ kv ∈ alistDel ((m.face ++
          [(m.nextFaceKey, [u, m.nextVertexKey, ouv])]) ++
          [(m.nextFaceKey + 1, [m.nextVertexKey, v, ouv])]) fkuv,
          kv.1 < m.nextFaceKey + 1 + 1 := by
        intro kv hkv
        have hmem : kv ∈ (m.face ++
            [(m.nextFaceKey, [u, m.nextVertexKey, ouv])]) ++
            [(m.nextFaceKey + 1, [m.nextVertexKey, v, ouv])] :=
          (List.mem_filter.mp hkv).1
        rcases List.mem_append.mp hmem with h | h
        · rcases List.mem_append.mp h with h | h
          · have := hfreshF kv h
            omega
          · obtain rfl := List.mem_singleton.mp h
            dsimp only
            omega
        · obtain rfl := List.mem_singleton.mp h
          dsimp only
          omega
      have hrun : trimesh_split_edge m u v t ab = .ok
          ({ vertex := m.vertex ++ [(m.nextVertexKey, (pu.1 + t * (pv.1 - pu.1),
                pu.2.1 + t * (pv.2.1 - pu.2.1), pu.2.2 + t * (pv.2.2 - pu.2.2)))],
             face := alistDel (((alistDel ((m.face ++
               [(m.nextFaceKey, [u, m.nextVertexKey, ouv])]) ++
               [(m.nextFaceKey + 1, [m.nextVertexKey, v, ouv])]) fkuv) ++
               [(m.nextFaceKey + 1 + 1, [v, m.nextVertexKey, ovu])]) ++
               [(m.nextFaceKey + 1 + 1 + 1, [m.nextVertexKey, u, ovu])]) fkvu,
             halfedge := alistDel (addLoopHalfedges (addLoopHalfedges
               (alistDel (addLoopHalfedges (addLoopHalfedges m.halfedge
                 m.nextFaceKey (cyclicPairs [u, m.nextVertexKey, ouv]))
                 (m.nextFaceKey + 1) (cyclicPairs [m.nextVertexKey, v, ouv])) (u, v))
               (m.nextFaceKey + 1 + 1) (cyclicPairs [v, m.nextVertexKey, ovu]))
               (m.nextFaceKey + 1 + 1 + 1) (cyclicPairs [m.nextVertexKey, u, ovu]))
               (v, u),
             nextVertexKey := m.nextVertexKey + 1,
             nextFaceKey := m.nextFaceKey + 1 + 1 + 1 + 1 }, some m.nextVertexKey) := by
        simp only [trimesh_split_edge, if_neg h1, if_neg h2, huv, hvu,
          Option.isNone_some, Bool.or_self, Bool.and_false, Bool.false_eq_true,
          if_false, edge_point, hpu, hpv, add_vertex, UVeq, VUeq]
      refine ⟨_, hrun, ?_, ?_, ?_, ?_⟩
      · intro h
        exact Option.noConfusion h
      · -- UV face conclusions through the VU deletion and additions
        intro fk hfk
        obtain rfl : fkuv = fk := Option.some.inj hfk
        have hF2 := faceTable_after_two_adds m.face fkuv m.nextFaceKey
          [u, m.nextVertexKey, ouv] [m.nextVertexKey, v, ouv] hfkuv_lt hfreshF
        refine ⟨?_, m.nextFaceKey, m.nextFaceKey + 1, by omega, ?_, ?_⟩
        · rw [faceTable_preserve _ _ _ _ _ _ (Ne.symm hfne) (by omega) (by omega)]
          exact hF2.1
        · rw [faceTable_preserve _ _ _ _ _ _ (Nat.ne_of_lt hfkvu_lt)
            (by omega) (by omega)]
          exact hF2.2.1
        · rw [faceTable_preserve _ _ _ _ _ _
            (by omega : fkvu ≠ m.nextFaceKey + 1) (by omega) (by omega)]
          exact hF2.2.2
      · intro h
        exact Option.noConfusion h
      · -- VU face conclusions
        intro fk hfk
        obtain rfl : fkvu = fk := Option.some.inj hfk
        have hmain := faceTable_after_two_adds
          (alistDel ((m.face ++ [(m.nextFaceKey, [u, m.nextVertexKey, ouv])]) ++
            [(m.nextFaceKey + 1, [m.nextVertexKey, v, ouv])]) fkuv)
          fkvu (m.nextFaceKey + 1 + 1)
          [v, m.nextVertexKey, ovu] [m.nextVertexKey, u, ovu]
          (by omega) hF2keys
        exact ⟨hmain.1, m.nextFaceKey + 1 + 1, m.nextFaceKey + 1 + 1 + 1,
          by omega, hmain.2.1, hmain.2.2⟩

end

/-- Witness for C7: splitting edge `(0, 1)` of the single triangle with
`allow_boundary = true`; the UV side carries face `0`, the VU side is a
boundary side. -/
theorem trimesh_split_edge_spec_witness :
    ((0 : ℚ) < 1/2 ∧ (1 : ℚ)/2 < 1 ∧ (0 : Nat) ≠ 1 ∧
      alistGet oneTriangleMesh.halfedge (0, 1) = some (some 0) ∧
      alistGet oneTriangleMesh.halfedge (1, 0) = some none ∧
      alistGet oneTriangleMesh.vertex 0 = some (0, 0, 0) ∧
      alistGet oneTriangleMesh.vertex 1 = some (1, 0, 0) ∧
      (true = true ∨ ((some 0 : Option Nat) ≠ none ∧ (none : Option Nat) ≠ none)) ∧
      (∀ fk, (some 0 : Option Nat) = some fk →
        alistGet oneTriangleMesh.face fk = some [0, 1, 2] ∧
        ([0, 1, 2] = [0, 1, 2] ∨ [0, 1, 2] = [2, 0, 1] ∨ [0, 1, 2] = [1, 2, 0])) ∧
      (∀ fk, (none : Option Nat) = some fk →
        alistGet oneTriangleMesh.face fk = some [] ∧
        ([] = [1, 0, 2] ∨ [] = [2, 1, 0] ∨ ([] : List Nat) = [0, 2, 1])) ∧
      (∀ fk fk2, (some 0 : Option Nat) = some fk →
        (none : Option Nat) = some fk2 → fk ≠ fk2) ∧
      (2 : Nat) ≠ 0 ∧ (2 : Nat) ≠ 1 ∧ (2 : Nat) ≠ 0 ∧ (2 : Nat) ≠ 1 ∧
      (2 : Nat) < oneTriangleMesh.nextVertexKey ∧
      (2 : Nat) < oneTriangleMesh.nextVertexKey ∧
      (∀ kv ∈ oneTriangleMesh.vertex, kv.1 < oneTriangleMesh.nextVertexKey) ∧
      (∀ kv ∈ oneTriangleMesh.face, kv.1 < oneTriangleMesh.nextFaceKey)) ∧
    (∃ m', trimesh_split_edge oneTriangleMesh 0 1 (1/2) true =
        .ok (m', some oneTriangleMesh.nextVertexKey) ∧
      ((some 0 : Option Nat) = none →
        alistGet m'.halfedge (0, oneTriangleMesh.nextVertexKey) = some none ∧
        alistGet m'.halfedge (oneTriangleMesh.nextVertexKey, 1) = some none ∧
        alistGet m'.halfedge (0, 1) = none) ∧
      (∀ fk, (some 0 : Option Nat) = some fk →
        alistGet m'.face fk = none ∧
        ∃ k1 k2, k1 ≠ k2 ∧
          alistGet m'.face k1 = some [0, oneTriangleMesh.nextVertexKey, 2] ∧
          alistGet m'.face k2 = some [oneTriangleMesh.nextVertexKey, 1, 2]) ∧
      ((none : Option Nat) = none →
        alistGet m'.halfedge (1, oneTriangleMesh.nextVertexKey) = some none ∧
        alistGet m'.halfedge (oneTriangleMesh.nextVertexKey, 0) = some none ∧
        alistGet m'.halfedge (1, 0) = none) ∧
      (∀ fk, (none : Option Nat) = some fk →
        alistGet m'.face fk = none ∧
        ∃ k1 k2, k1 ≠ k2 ∧
          alistGet m'.face k1 = some [1, oneTriangleMesh.nextVertexKey, 2] ∧
          alistGet m'.face k2 = some [oneTriangleMesh.nextVertexKey, 0, 2])) :=
  by
  refine ⟨⟨by norm_num, by norm_num, by decide, by decide, by decide, by decide, by decide,
    Or.inl rfl, ?_, ?_, ?_, by decide, by decide, by decide, by decide, by decide, by decide,
    by decide, by decide⟩, ?_⟩
  · intro fk h
    obtain rfl := Option.some.inj h
    exact ⟨by decide, Or.inl rfl⟩
  · intro fk h
    exact Option.noConfusion h
  · intro fk fk2 _ h2
    exact Option.noConfusion h2
  · refine trimesh_split_edge_spec oneTriangleMesh 0 1 (1/2) true (some 0) none
      [0, 1, 2] [] 2 2 (0, 0, 0) (1, 0, 0)
      (by norm_num) (by norm_num) (by decide) (by decide) (by decide)
      (by decide) (by decide) (Or.inl rfl) ?_ ?_ ?_
      (by decide) (by decide) (by decide) (by decide) (by decide) (by decide)
      (by decide) (by decide)
    · intro fk h
      obtain rfl := Option.some.inj h
      exact ⟨by decide, Or.inl rfl⟩
    · intro fk h
      exact Option.noConfusion h
    · intro fk fk2 _ h2
      exact Option.noConfusion h2

/-! ## Traversal and connectivity (`compas/datastructures/mesh/components.py`)

The adjacency dictionary of the Python code maps a vertex identifier to the
list of its neighbours; it is embedded as an association list.  The function
`breadth_first_traverse` is imported from `compas.topology`, whose code is not
part of the repository, so it is modelled from the spec. -/

/-- An adjacency dictionary: vertex identifier to list of neighbours. -/
abbrev Adjacency := List (Nat × List Nat)

/-- The neighbour list of `a` (an absent vertex has no neighbours). -/
def nbrs (adj : Adjacency) (a : Nat) : List Nat :=
  (alistGet adj a).getD []

/-- Add `n` to the visited list unless it is already there. -/
def insertNew (a : List Nat) (n : Nat) : List Nat :=
  if n ∈ a then a else a ++ [n]

/-- Add every element of `ns` to the visited list, skipping known ones. -/
def addAll (a : List Nat) (ns : List Nat) : List Nat :=
  ns.foldl insertNew a

/-- One saturation round: add the neighbours of every visited vertex. -/
def bftStep (adj : Adjacency) (visited : List Nat) : List Nat :=
  visited.foldl (fun acc node => addAll acc (nbrs adj node)) visited

/-- Iterate `bftStep` until a fixpoint or until the fuel runs out. -/
def bftIter (adj : Adjacency) : Nat → List Nat → List Nat
  | 0, visited => visited
  | fuel + 1, visited =>
      let v2 := bftStep adj visited
      if v2 = visited then visited else bftIter adj fuel v2

/-- Every vertex identifier occurring in some neighbour list. -/
def allNbrs (adj : Adjacency) : List Nat :=
  adj.foldr (fun kv acc => kv.2 ++ acc) []

/-- Modelled from the spec: `breadth_first_traverse(adjacency, root)` performs
a standard breadth-first traversal from `root` with a first-in-first-out
frontier and a visited set preventing revisits, and returns the set of visited
vertex identifiers.  Since the spec states that the produced set is unordered,
the traversal is modelled as round-based saturation of the visited set, which
visits exactly the same set of vertices; the fuel bounds the number of rounds
and is large enough for the saturation to reach its fixpoint. -/
def breadth_first_traverse (adj : Adjacency) (root : Nat) : List Nat :=
  bftIter adj (root :: allNbrs adj).length [root]

/-- Reachability along the adjacency: the reflexive-transitive closure of the
one-step neighbour relation. -/
def Reach (adj : Adjacency) (a b : Nat) : Prop :=
  Relation.ReflTransGen (fun x y => y ∈ nbrs adj x) a b

/-- The loop of `connected_components`: pop the first unvisited vertex,
traverse its component, drop the component from the unvisited pool, record
the component. -/
def ccAux (adj : Adjacency) : Nat → List Nat → List (List Nat) → List (List Nat)
  | 0, _, comps => comps
  | _ + 1, [], comps => comps
  | fuel + 1, root :: rest, comps =>
      let visited := breadth_first_traverse adj root
      ccAux adj fuel (rest.filter (fun x => decide (x ∉ visited))) (comps ++ [visited])

/-- `connected_components(adjacency)` from `components.py`: the unvisited pool
starts as the set of keys of the adjacency dictionary (set construction is
modelled by `dedup`, the arbitrary `pop` by taking the head); the fuel equals
the pool size, which the loop strictly decreases. -/
def connected_components (adj : Adjacency) : List (List Nat) :=
  ccAux adj (adj.map Prod.fst).dedup.length (adj.map Prod.fst).dedup []

/-- A symmetric adjacency dictionary, as produced from a mesh: every
neighbour `b` of a key `kv.1` lists `kv.1` among its own neighbours (in
particular `b` is itself a key). -/
abbrev symmAdj (adj : Adjacency) : Prop :=
  ∀ kv ∈ adj, ∀ b ∈ kv.2, kv.1 ∈ nbrs adj b

theorem mem_insertNew (a : List Nat) (n x : Nat) :
    x ∈ insertNew a n ↔ x ∈ a ∨ x = n := by
  unfold insertNew
  by_cases h : n ∈ a
  · simp only [if_pos h]
    constructor
    · exact Or.inl
    · rintro (hx | rfl)
      · exact hx
      · exact h
  · simp [if_neg h]

theorem insertNew_nodup (a : List Nat) (n : Nat) (h : a.Nodup) :
    (insertNew a n).Nodup := by
  unfold insertNew
  by_cases hn : n ∈ a
  · simpa [if_pos hn]
  · simp [if_neg hn, List.nodup_append, h, hn]

theorem insertNew_append (a : List Nat) (n : Nat) :
    ∃ t, insertNew a n = a ++ t := by
  unfold insertNew
  by_cases hn : n ∈ a
  · exact ⟨[], by simp [if_pos hn]⟩
  · exact ⟨[n], by simp [if_neg hn]⟩

theorem mem_addAll (ns : List Nat) : ∀ (a : List Nat) (x : Nat),
    x ∈ addAll a ns ↔ x ∈ a ∨ x ∈ ns := by
  induction ns with
  | nil => intro a x; simp [addAll]
  | cons n ns ih =>
    intro a x
    show x ∈ addAll (insertNew a n) ns ↔ _
    rw [ih, mem_insertNew]
    simp only [List.mem_cons]
    tauto

theorem addAll_nodup (ns : List Nat) : ∀ (a : List Nat), a.Nodup →
    (addAll a ns).Nodup := by
  induction ns with
  | nil => intro a h; exact h
  | cons n ns ih =>
    intro a h
    exact ih (insertNew a n) (insertNew_nodup a n h)

theorem addAll_append (ns : List Nat) : ∀ (a : List Nat),
    ∃ t, addAll a ns = a ++ t := by
  induction ns with
  | nil => intro a; exact ⟨[], by simp [addAll]⟩
  | cons n ns ih =>
    intro a
    obtain ⟨t₀, ht₀⟩ := insertNew_append a n
    obtain ⟨t₁, ht₁⟩ := ih (insertNew a n)
    refine ⟨t₀ ++ t₁, ?_⟩
    show addAll (insertNew a n) ns = _
    rw [ht₁, ht₀, List.append_assoc]

theorem mem_foldl_addAll (adj : Adjacency) (vs : List Nat) :
    ∀ (acc : List Nat) (x : Nat),
      x ∈ vs.foldl (fun acc node => addAll acc (nbrs adj node)) acc ↔
        x ∈ acc ∨ ∃ v ∈ vs, x ∈ nbrs adj v := by
  induction vs with
  | nil => intro acc x; simp
  | cons v vs ih =>
    intro acc x
    show x ∈ vs.foldl _ (addAll acc (nbrs adj v)) ↔ _
    rw [ih, mem_addAll]
    simp only [List.mem_cons]
    constructor
    · rintro ((hx | hx) | ⟨w, hw, hx⟩)
      · exact Or.inl hx
      · exact Or.inr ⟨v, Or.inl rfl, hx⟩
      · exact Or.inr ⟨w, Or.inr hw, hx⟩
    · rintro (hx | ⟨w, (rfl | hw), hx⟩)
      · exact Or.inl (Or.inl hx)
      · exact Or.inl (Or.inr hx)
      · exact Or.inr ⟨w, hw, hx⟩

theorem mem_bftStep (adj : Adjacency) (V : List Nat) (x : Nat) :
    x ∈ bftStep adj V ↔ x ∈ V ∨ ∃ v ∈ V, x ∈ nbrs adj v :=
  mem_foldl_addAll adj V V x

theorem foldl_addAll_nodup (adj : Adjacency) (vs : List Nat) :
    ∀ (acc : List Nat), acc.Nodup →
      (vs.foldl (fun acc node => addAll acc (nbrs adj node)) acc).Nodup := by
  induction vs with
  | nil => intro acc h; exact h
  | cons v vs ih =>
    intro acc h
    exact ih (addAll acc (nbrs adj v)) (addAll_nodup (nbrs adj v) acc h)

theorem foldl_addAll_append (adj : Adjacency) (vs : List Nat) :
    ∀ (acc : List Nat),
      ∃ t, vs.foldl (fun acc node => addAll acc (nbrs adj node)) acc = acc ++ t := by
  induction vs with
  | nil => intro acc; exact ⟨[], by simp⟩
  | cons v vs ih =>
    intro acc
    obtain ⟨t₀, ht₀⟩ := addAll_append (nbrs adj v) acc
    obtain ⟨t₁, ht₁⟩ := ih (addAll acc (nbrs adj v))
    exact ⟨t₀ ++ t₁, by rw [List.foldl_cons, ht₁, ht₀, List.append_assoc]⟩

theorem bftStep_nodup (adj : Adjacency) (V : List Nat) (h : V.Nodup) :
    (bftStep adj V).Nodup :=
  foldl_addAll_nodup adj V V h

theorem bftStep_append (adj : Adjacency) (V : List Nat) :
    ∃ t, bftStep adj V = V ++ t :=
  foldl_addAll_append adj V V

theorem mem_bftIter_of_mem (adj : Adjacency) (fuel : Nat) :
    ∀ (V : List Nat) (x : Nat), x ∈ V → x ∈ bftIter adj fuel V := by
  induction fuel with
  | zero => intro V x hx; exact hx
  | succ fuel ih =>
    intro V x hx
    show x ∈ (if bftStep adj V = V then V else bftIter adj fuel (bftStep adj V))
    by_cases h : bftStep adj V = V
    · rw [if_pos h]; exact hx
    · rw [if_neg h]
      exact ih (bftStep adj V) x ((mem_bftStep adj V x).mpr (Or.inl hx))

theorem bftIter_nodup (adj : Adjacency) (fuel : Nat) :
    ∀ (V : List Nat), V.Nodup → (bftIter adj fuel V).Nodup := by
  induction fuel with
  | zero => intro V h; exact h
  | succ fuel ih =>
    intro V h
    show (if bftStep adj V = V then V else bftIter adj fuel (bftStep adj V)).Nodup
    by_cases hfix : bftStep adj V = V
    · rw [if_pos hfix]; exact h
    · rw [if_neg hfix]
      exact ih (bftStep adj V) (bftStep_nodup adj V h)

theorem bftIter_reach (adj : Adjacency) (root : Nat) (fuel : Nat) :
    ∀ (V : List Nat), (∀ v ∈ V, Reach adj root v) →
      ∀ x ∈ bftIter adj fuel V, Reach adj root x := by
  induction fuel with
  | zero => intro V hV x hx; exact hV x hx
  | succ fuel ih =>
    intro V hV x hx
    by_cases hfix : bftStep adj V = V
    · rw [show bftIter adj (fuel + 1) V = V by
        show (if bftStep adj V = V then V else _) = V
        rw [if_pos hfix]] at hx
      exact hV x hx
    · rw [show bftIter adj (fuel + 1) V = bftIter adj fuel (bftStep adj V) by
        show (if bftStep adj V = V then V else _) = _
        rw [if_neg hfix]] at hx
      refine ih (bftStep adj V) ?_ x hx
      intro v hv
      rcases (mem_bftStep adj V v).mp hv with hv | ⟨w, hw, hv⟩
      · exact hV v hv
      · exact (hV w hw).tail hv

theorem bftStep_eq_closed (adj : Adjacency) (V : List Nat)
    (h : bftStep adj V = V) : ∀ v ∈ V, ∀ n ∈ nbrs adj v, n ∈ V := by
  intro v hv n hn
  rw [← h]
  exact (mem_bftStep adj V n).mpr (Or.inr ⟨v, hv, hn⟩)

theorem mem_allNbrs (adj : Adjacency) (x : Nat) :
    x ∈ allNbrs adj ↔ ∃ kv ∈ adj, x ∈ kv.2 := by
  induction adj with
  | nil => simp [allNbrs]
  | cons kv adj ih =>
    show x ∈ kv.2 ++ allNbrs adj ↔ _
    rw [List.mem_append, ih]
    simp only [List.mem_cons]
    constructor
    · rintro (hx | ⟨kw, hkw, hx⟩)
      · exact ⟨kv, Or.inl rfl, hx⟩
      · exact ⟨kw, Or.inr hkw, hx⟩
    · rintro ⟨kw, (rfl | hkw), hx⟩
      · exact Or.inl hx
      · exact Or.inr ⟨kw, hkw, hx⟩

theorem nbrs_subset_allNbrs (adj : Adjacency) (v x : Nat) (hx : x ∈ nbrs adj v) :
    x ∈ allNbrs adj := by
  unfold nbrs at hx
  cases hget : alistGet adj v with
  | none => rw [hget] at hx; simp at hx
  | some L =>
    rw [hget] at hx
    exact (mem_allNbrs adj x).mpr ⟨(v, L), mem_of_alistGet_eq_some hget, hx⟩

theorem bftStep_bftIter_eq (adj : Adjacency) (U : List Nat)
    (hcl : ∀ x ∈ allNbrs adj, x ∈ U) :
    ∀ (fuel : Nat) (V : List Nat), V.Nodup → (∀ x ∈ V, x ∈ U) →
      U.dedup.length ≤ fuel + V.length →
      bftStep adj (bftIter adj fuel V) = bftIter adj fuel V := by
  intro fuel
  induction fuel with
  | zero =>
    intro V hnd hVU hlen
    show bftStep adj V = V
    have hsub : V ⊆ U.dedup := fun x hx => List.mem_dedup.mpr (hVU x hx)
    have hVle : V.length ≤ U.dedup.length := (hnd.subperm hsub).length_le
    obtain ⟨t, ht⟩ := bftStep_append adj V
    have hnd2 : (bftStep adj V).Nodup := bftStep_nodup adj V hnd
    have hsub2 : bftStep adj V ⊆ U.dedup := by
      intro x hx
      rcases (mem_bftStep adj V x).mp hx with hx | ⟨v, _, hx⟩
      · exact hsub hx
      · exact List.mem_dedup.mpr (hcl x (nbrs_subset_allNbrs adj v x hx))
    have hle2 : (bftStep adj V).length ≤ U.dedup.length := (hnd2.subperm hsub2).length_le
    have ht0 : t = [] := by
      rw [ht] at hle2
      rw [List.length_append] at hle2
      have : t.length = 0 := by omega
      exact List.length_eq_zero.mp this
    rw [ht, ht0, List.append_nil]
  | succ fuel ih =>
    intro V hnd hVU hlen
    by_cases hfix : bftStep adj V = V
    · rw [show bftIter adj (fuel + 1) V = V by
        show (if bftStep adj V = V then V else _) = V
        rw [if_pos hfix]]
      exact hfix
    · rw [show bftIter adj (fuel + 1) V = bftIter adj fuel (bftStep adj V) by
        show (if bftStep adj V = V then V else _) = _
        rw [if_neg hfix]]
      obtain ⟨t, ht⟩ := bftStep_append adj V
      have ht0 : t ≠ [] := by
        intro h0
        exact hfix (by rw [ht, h0, List.append_nil])
      refine ih (bftStep adj V) (bftStep_nodup adj V hnd) ?_ ?_
      · intro x hx
        rcases (mem_bftStep adj V x).mp hx with hx | ⟨v, _, hx⟩
        · exact hVU x hx
        · exact hcl x (nbrs_subset_allNbrs adj v x hx)
      · rw [ht, List.length_append]
        have : 1 ≤ t.length := List.length_pos.mpr ht0
        omega

theorem mem_breadth_first_traverse (adj : Adjacency) (root x : Nat) :
    x ∈ breadth_first_traverse adj root ↔ Reach adj root x := by
  constructor
  · intro hx
    refine bftIter_reach adj root _ [root] ?_ x hx
    intro v hv
    rw [List.mem_singleton.mp hv]
    exact Relation.ReflTransGen.refl
  · intro hx
    have hfix : bftStep adj (breadth_first_traverse adj root) =
        breadth_first_traverse adj root := by
      refine bftStep_bftIter_eq adj (root :: allNbrs adj)
        (fun y hy => List.mem_cons_of_mem root hy)
        (root :: allNbrs adj).length [root] (List.nodup_singleton root) ?_ ?_
      · intro y hy
        rw [List.mem_singleton.mp hy]
        exact List.mem_cons_self root (allNbrs adj)
      · have := (List.dedup_sublist (root :: allNbrs adj)).length_le
        simp only [List.length_singleton]
        omega
    have hroot : root ∈ breadth_first_traverse adj root :=
      mem_bftIter_of_mem adj _ [root] root (List.mem_singleton.mpr rfl)
    have hclosed := bftStep_eq_closed adj _ hfix
    induction hx with
    | refl => exact hroot
    | tail hab hbc ih2 => exact hclosed _ ih2 _ hbc

theorem breadth_first_traverse_nodup (adj : Adjacency) (root : Nat) :
    (breadth_first_traverse adj root).Nodup :=
  bftIter_nodup adj _ [root] (List.nodup_singleton root)

theorem root_mem_breadth_first_traverse (adj : Adjacency) (root : Nat) :
    root ∈ breadth_first_traverse adj root :=
  mem_bftIter_of_mem adj _ [root] root (List.mem_singleton.mpr rfl)

theorem edge_symm (adj : Adjacency) (hsym : symmAdj adj) (x y : Nat)
    (hxy : y ∈ nbrs adj x) : x ∈ nbrs adj y := by
  unfold nbrs at hxy
  cases hget : alistGet adj x with
  | none => rw [hget] at hxy; simp at hxy
  | some L =>
    rw [hget] at hxy
    exact hsym (x, L) (mem_of_alistGet_eq_some hget) y hxy

theorem reach_symm (adj : Adjacency) (hsym : symmAdj adj) {a b : Nat}
    (h : Reach adj a b) : Reach adj b a :=
  Relation.ReflTransGen.symmetric (fun x y hxy => edge_symm adj hsym x y hxy) h

theorem key_of_mem_nbrs (adj : Adjacency) (b x : Nat) (hx : x ∈ nbrs adj b) :
    b ∈ adj.map Prod.fst := by
  unfold nbrs at hx
  cases hget : alistGet adj b with
  | none => rw [hget] at hx; simp at hx
  | some L =>
    exact List.mem_map_of_mem Prod.fst (mem_of_alistGet_eq_some hget)

theorem reach_mem_keys (adj : Adjacency) (hsym : symmAdj adj) {root x : Nat}
    (hroot : root ∈ adj.map Prod.fst) (h : Reach adj root x) :
    x ∈ adj.map Prod.fst := by
  induction h with
  | refl => exact hroot
  | tail hab hbc ih =>
    exact key_of_mem_nbrs adj _ _ (edge_symm adj hsym _ _ hbc)

theorem bft_subset_keys (adj : Adjacency) (hsym : symmAdj adj) {root : Nat}
    (hroot : root ∈ adj.map Prod.fst) :
    ∀ x ∈ breadth_first_traverse adj root, x ∈ adj.map Prod.fst :=
  fun x hx =>
    reach_mem_keys adj hsym hroot ((mem_breadth_first_traverse adj root x).mp hx)

theorem ccAux_spec (adj : Adjacency) (hsym : symmAdj adj) :
    ∀ (fuel : Nat) (tovisit : List Nat) (comps : List (List Nat)),
      tovisit.length ≤ fuel →
      (∀ x ∈ tovisit, x ∈ adj.map Prod.fst) →
      (∀ c ∈ comps, ∀ x ∈ c, x ∈ adj.map Prod.fst) →
      comps.Pairwise (fun c1 c2 => ∀ x, x ∈ c1 → x ∉ c2) →
      (∀ c ∈ comps, ∀ x ∈ tovisit, x ∉ c) →
      (∀ c ∈ comps, ∀ x ∈ c, ∀ y, Reach adj x y → y ∈ c) →
      (∀ x ∈ adj.map Prod.fst, x ∈ tovisit ∨ ∃ c ∈ comps, x ∈ c) →
      (∀ c ∈ ccAux adj fuel tovisit comps, ∀ x ∈ c, x ∈ adj.map Prod.fst) ∧
        (ccAux adj fuel tovisit comps).Pairwise (fun c1 c2 => ∀ x, x ∈ c1 → x ∉ c2) ∧
        (∀ x ∈ adj.map Prod.fst, ∃ c ∈ ccAux adj fuel tovisit comps, x ∈ c) := by
  intro fuel
  induction fuel with
  | zero =>
    intro tovisit comps hlen htv hck hpw hsep hclosed hcov
    have htv0 : tovisit = [] := List.length_eq_zero.mp (Nat.le_zero.mp hlen)
    subst htv0
    refine ⟨hck, hpw, ?_⟩
    intro x hx
    rcases hcov x hx with hx2 | hx2
    · exact absurd hx2 (List.not_mem_nil x)
    · exact hx2
  | succ fuel ih =>
    intro tovisit comps hlen htv hck hpw hsep hclosed hcov
    match tovisit with
    | [] =>
      show (∀ c ∈ comps, _) ∧ _ ∧ _
      refine ⟨hck, hpw, ?_⟩
      intro x hx
      rcases hcov x hx with hx2 | hx2
      · exact absurd hx2 (List.not_mem_nil x)
      · exact hx2
    | root :: rest =>
      have hrootkey : root ∈ adj.map Prod.fst := htv root (List.mem_cons_self root rest)
      show (∀ c ∈ ccAux adj fuel (rest.filter _) (comps ++ [breadth_first_traverse adj root]), _) ∧ _ ∧ _
      set visited := breadth_first_traverse adj root with hvis
      refine ih (rest.filter (fun x => decide (x ∉ visited))) (comps ++ [visited])
        ?_ ?_ ?_ ?_ ?_ ?_ ?_
      · calc (rest.filter (fun x => decide (x ∉ visited))).length
            ≤ rest.length := rest.length_filter_le _
          _ ≤ fuel := by
              have := hlen
              simp only [List.length_cons] at this
              omega
      · intro x hx
        exact htv x (List.mem_cons_of_mem root (List.mem_of_mem_filter hx))
      · intro c hc x hx
        rcases List.mem_append.mp hc with hc | hc
        · exact hck c hc x hx
        · rw [List.mem_singleton.mp hc] at hx
          exact bft_subset_keys adj hsym hrootkey x hx
      · rw [List.pairwise_append]
        refine ⟨hpw, List.pairwise_singleton _ _, ?_⟩
        intro c hc c2 hc2 x hxc
        rw [List.mem_singleton.mp hc2]
        intro hxv
        have hreach : Reach adj root x := (mem_breadth_first_traverse adj root x).mp hxv
        have hrootc : root ∈ c :=
          hclosed c hc x hxc root (reach_symm adj hsym hreach)
        exact hsep c hc root (List.mem_cons_self root rest) hrootc
      · intro c hc x hx
        rcases List.mem_append.mp hc with hc | hc
        · exact hsep c hc x (List.mem_cons_of_mem root (List.mem_of_mem_filter hx))
        · rw [List.mem_singleton.mp hc]
          have := List.mem_filter.mp hx
          exact of_decide_eq_true this.2
      · intro c hc x hx y hreach
        rcases List.mem_append.mp hc with hc | hc
        · exact hclosed c hc x hx y hreach
        · rw [List.mem_singleton.mp hc] at hx ⊢
          rw [mem_breadth_first_traverse]
          exact ((mem_breadth_first_traverse adj root x).mp hx).trans hreach
      · intro x hx
        rcases hcov x hx with hx2 | hx2
        · rcases List.mem_cons.mp hx2 with rfl | hx2
          · exact Or.inr ⟨visited, List.mem_append_right comps
              (List.mem_singleton.mpr rfl), root_mem_breadth_first_traverse adj x⟩
          · by_cases hxv : x ∈ visited
            · exact Or.inr ⟨visited, List.mem_append_right comps
                (List.mem_singleton.mpr rfl), hxv⟩
            · exact Or.inl (List.mem_filter.mpr ⟨hx2, decide_eq_true hxv⟩)
        · obtain ⟨c, hc, hxc⟩ := hx2
          exact Or.inr ⟨c, List.mem_append_left _ hc, hxc⟩

/-- C2: for every symmetric adjacency dictionary (as produced from a mesh),
`connected_components` returns a partition of the vertex set: a vertex is a
key of the adjacency exactly when it lies in some returned component, and
the returned components are pairwise disjoint, so no vertex occurs in two
components and none is omitted. -/
theorem connected_components_partition (adj : Adjacency) (hsym : symmAdj adj) :
    (∀ x, x ∈ adj.map Prod.fst ↔ ∃ c ∈ connected_components adj, x ∈ c) ∧
      (connected_components adj).Pairwise (fun c1 c2 => ∀ x, x ∈ c1 → x ∉ c2) := by
  have h := ccAux_spec adj hsym (adj.map Prod.fst).dedup.length
    (adj.map Prod.fst).dedup [] le_rfl
    (fun x hx => List.mem_dedup.mp hx)
    (fun c hc => absurd hc (List.not_mem_nil c))
    List.Pairwise.nil
    (fun c hc => absurd hc (List.not_mem_nil c))
    (fun c hc => absurd hc (List.not_mem_nil c))
    (fun x hx => Or.inl (List.mem_dedup.mpr hx))
  refine ⟨fun x => ⟨fun hx => h.2.2 x hx, ?_⟩, h.2.1⟩
  rintro ⟨c, hc, hxc⟩
  exact h.1 c hc x hxc

/-- Two disjoint triangles: the components are `{0, 1, 2}` and `{10, 11, 12}`. -/
def twoTrianglesAdjacency : Adjacency :=
  [(0, [1, 2]), (1, [0, 2]), (2, [0, 1]),
   (10, [11, 12]), (11, [10, 12]), (12, [10, 11])]

/-- Witness for C2: the two-disjoint-triangles adjacency is symmetric and its
components partition the six vertices. -/
theorem connected_components_partition_witness :
    symmAdj twoTrianglesAdjacency ∧
      ((∀ x, x ∈ twoTrianglesAdjacency.map Prod.fst ↔
          ∃ c ∈ connected_components twoTrianglesAdjacency, x ∈ c) ∧
        (connected_components twoTrianglesAdjacency).Pairwise
          (fun c1 c2 => ∀ x, x ∈ c1 → x ∉ c2)) :=
  ⟨by decide, connected_components_partition twoTrianglesAdjacency (by decide)⟩

/-- Modelled from the spec: `vertex_neighbors(v)` returns the neighbouring
vertex identifiers of `v`, read off the half-edge index as the targets of the
half-edges leaving `v`; the spec fixes the set but only requires a consistent
order, so table order is used. -/
def vertex_neighbors (m : Mesh) (u : Nat) : List Nat :=
  (m.halfedge.filter (fun e => e.1.1 == u)).map (fun e => e.1.2)

/-- Modelled from the spec: the adjacency view of a mesh, mapping every
vertex identifier to its neighbour list from `vertex_neighbors`. -/
def mesh_adjacency (m : Mesh) : Adjacency :=
  m.vertex.map (fun kv => (kv.1, vertex_neighbors m kv.1))

/-- Modelled from the spec: `get_any_vertex()` returns one arbitrary vertex
identifier, determinised here as the first key of the vertex table (`0` on an
empty mesh, where the callers never use it). -/
def get_any_vertex (m : Mesh) : Nat :=
  match m.vertex with
  | [] => 0
  | kv :: _ => kv.1

/-- Modelled from the spec: the number of vertices of the mesh. -/
def number_of_vertices (m : Mesh) : Nat :=
  m.vertex.length

/-- `mesh_is_connected(mesh)` from `components.py`: `False` on an empty vertex
dictionary, otherwise compare the size of a breadth-first traversal from one
vertex with the total number of vertices. -/
def mesh_is_connected (m : Mesh) : Bool :=
  match m.vertex with
  | [] => false
  | _ :: _ =>
      (breadth_first_traverse (mesh_adjacency m) (get_any_vertex m)).length
        == number_of_vertices m

/-- Modelled from the spec: a network datastructure, of which the connectivity
check uses only the vertex dictionary and the stored adjacency dictionary. -/
structure Network where
  vertex : List (Nat × Point)
  adjacency : Adjacency

/-- Modelled from the spec: `get_any_vertex()` of a network, determinised as
the first key of the vertex table. -/
def network_get_any_vertex (n : Network) : Nat :=
  match n.vertex with
  | [] => 0
  | kv :: _ => kv.1

/-- Modelled from the spec: the number of vertices of the network. -/
def network_number_of_vertices (n : Network) : Nat :=
  n.vertex.length

/-- `network_is_connected(network)` from `components.py`: `False` on an empty
vertex dictionary, otherwise compare the size of a breadth-first traversal
from one vertex with the total number of vertices. -/
def network_is_connected (n : Network) : Bool :=
  match n.vertex with
  | [] => false
  | _ :: _ =>
      (breadth_first_traverse n.adjacency (network_get_any_vertex n)).length
        == network_number_of_vertices n

theorem ccAux_nil (adj : Adjacency) (fuel : Nat) (comps : List (List Nat)) :
    ccAux adj fuel [] comps = comps := by
  cases fuel <;> rfl

theorem ccAux_length_ge (adj : Adjacency) :
    ∀ (fuel : Nat) (tovisit : List Nat) (comps : List (List Nat)),
      comps.length ≤ (ccAux adj fuel tovisit comps).length := by
  intro fuel
  induction fuel with
  | zero => intro tovisit comps; exact le_rfl
  | succ fuel ih =>
    intro tovisit comps
    match tovisit with
    | [] => exact le_rfl
    | root :: rest =>
      calc comps.length
          ≤ (comps ++ [breadth_first_traverse adj root]).length := by
            rw [List.length_append]; omega
        _ ≤ _ := ih _ _

theorem ccAux_length_gt (adj : Adjacency) (fuel : Nat) (tovisit : List Nat)
    (comps : List (List Nat)) (hlen : tovisit.length ≤ fuel + 1)
    (hne : tovisit ≠ []) :
    comps.length + 1 ≤ (ccAux adj (fuel + 1) tovisit comps).length := by
  match tovisit with
  | [] => exact absurd rfl hne
  | root :: rest =>
    calc comps.length + 1
        = (comps ++ [breadth_first_traverse adj root]).length := by
          rw [List.length_append]; rfl
      _ ≤ _ := ccAux_length_ge adj fuel _ _

theorem is_connected_count_iff (adj : Adjacency) (hsym : symmAdj adj)
    (hnd : (adj.map Prod.fst).Nodup) (k0 : Nat) (rest : List Nat)
    (hkeys : adj.map Prod.fst = k0 :: rest) :
    ((breadth_first_traverse adj k0).length = adj.length ↔
      (connected_components adj).length = 1) := by
  have hdedup : (adj.map Prod.fst).dedup = k0 :: rest := by
    rw [hnd.dedup, hkeys]
  have hk0 : k0 ∈ adj.map Prod.fst := by rw [hkeys]; exact List.mem_cons_self k0 rest
  have hndk : (k0 :: rest).Nodup := by rw [← hkeys]; exact hnd
  have hlenkeys : (adj.map Prod.fst).length = adj.length := by
    simp [List.length_map]
  set V0 := breadth_first_traverse adj k0 with hV0
  have hV0nd : V0.Nodup := breadth_first_traverse_nodup adj k0
  have hV0sub : ∀ x ∈ V0, x ∈ k0 :: rest := by
    intro x hx
    rw [← hkeys]
    exact bft_subset_keys adj hsym hk0 x hx
  have hk0V0 : k0 ∈ V0 := root_mem_breadth_first_traverse adj k0
  have hcc : connected_components adj =
      ccAux adj rest.length (rest.filter (fun x => decide (x ∉ V0))) [V0] := by
    show ccAux adj (adj.map Prod.fst).dedup.length (adj.map Prod.fst).dedup [] = _
    rw [hdedup]
    show ccAux adj (rest.length + 1) (k0 :: rest) [] = _
    rfl
  constructor
  · intro hlen
    have hVlen : V0.length = (k0 :: rest).length := by
      rw [hlen, ← hlenkeys, hkeys]
    have hperm : List.Perm V0 (k0 :: rest) :=
      (hV0nd.subperm hV0sub).perm_of_length_le (le_of_eq hVlen.symm)
    have hfilter : rest.filter (fun x => decide (x ∉ V0)) = [] := by
      rw [List.filter_eq_nil_iff]
      intro a ha
      simp only [decide_eq_true_eq, Decidable.not_not]
      exact hperm.mem_iff.mpr (List.mem_cons_of_mem k0 ha)
    rw [hcc, hfilter, ccAux_nil]
    rfl
  · intro hone
    rw [hcc] at hone
    have hfilter : rest.filter (fun x => decide (x ∉ V0)) = [] := by
      by_contra hne
      have hlenf : (rest.filter (fun x => decide (x ∉ V0))).length ≤ rest.length :=
        rest.length_filter_le _
      match hfuel : rest.length with
      | 0 =>
        rw [hfuel] at hlenf
        exact hne (List.length_eq_zero.mp (Nat.le_zero.mp hlenf))
      | fuel + 1 =>
        have := ccAux_length_gt adj fuel (rest.filter (fun x => decide (x ∉ V0))) [V0]
          (by omega) hne
        rw [hfuel, Nat.succ_eq_add_one] at hone
        rw [hone] at this
        simp at this
    have hkeysub : ∀ x ∈ k0 :: rest, x ∈ V0 := by
      intro x hx
      rcases List.mem_cons.mp hx with rfl | hx
      · exact hk0V0
      · by_contra hxV
        have : x ∈ rest.filter (fun x => decide (x ∉ V0)) :=
          List.mem_filter.mpr ⟨hx, decide_eq_true hxV⟩
        rw [hfilter] at this
        exact List.not_mem_nil x this
    have h1 : V0.length ≤ (k0 :: rest).length := (hV0nd.subperm hV0sub).length_le
    have h2 : (k0 :: rest).length ≤ V0.length := (hndk.subperm hkeysub).length_le
    have : V0.length = (k0 :: rest).length := le_antisymm h1 h2
    rw [this, ← hkeys, hlenkeys]

theorem mesh_adjacency_keys (m : Mesh) :
    (mesh_adjacency m).map Prod.fst = m.vertex.map Prod.fst := by
  unfold mesh_adjacency
  rw [List.map_map]
  rfl

theorem mesh_adjacency_length (m : Mesh) :
    (mesh_adjacency m).length = m.vertex.length := by
  unfold mesh_adjacency
  exact List.length_map _ _

/-- C9: on an empty vertex table `mesh_is_connected` returns `False` rather
than raising; and on a non-empty well-formed mesh (symmetric adjacency view,
duplicate-free vertex keys) `mesh_is_connected` returns `True` exactly when
`connected_components` of the mesh adjacency returns a single component,
i.e. when the breadth-first traversal from the chosen vertex reaches every
vertex. -/
theorem mesh_is_connected_iff_one_component (m : Mesh)
    (hsym : symmAdj (mesh_adjacency m))
    (hnd : (m.vertex.map Prod.fst).Nodup) :
    (m.vertex = [] → mesh_is_connected m = false) ∧
      (m.vertex ≠ [] →
        (mesh_is_connected m = true ↔
          (connected_components (mesh_adjacency m)).length = 1)) := by
  constructor
  · intro hempty
    unfold mesh_is_connected
    rw [hempty]
  · intro hne
    match hv : m.vertex with
    | [] => exact absurd hv hne
    | kv :: vrest =>
      have hkeys : (mesh_adjacency m).map Prod.fst = kv.1 :: vrest.map Prod.fst := by
        rw [mesh_adjacency_keys, hv]
        rfl
      have hnd2 : ((mesh_adjacency m).map Prod.fst).Nodup := by
        rw [mesh_adjacency_keys]
        exact hnd
      have hroot : get_any_vertex m = kv.1 := by
        unfold get_any_vertex
        rw [hv]
      have hcount : number_of_vertices m = (mesh_adjacency m).length := by
        unfold number_of_vertices
        rw [mesh_adjacency_length]
      have hmain := is_connected_count_iff (mesh_adjacency m) hsym hnd2 kv.1
        (vrest.map Prod.fst) hkeys
      have hisc : mesh_is_connected m =
          ((breadth_first_traverse (mesh_adjacency m) (get_any_vertex m)).length
            == number_of_vertices m) := by
        unfold mesh_is_connected
        rw [hv]
      rw [hisc, hroot, hcount, beq_iff_eq]
      exact hmain

/-- Witness for C9: the two-triangle mesh is non-empty, well-formed and
connected, and its component count is one. -/
theorem mesh_is_connected_iff_one_component_witness :
    (symmAdj (mesh_adjacency twoTriangleMesh) ∧
      (twoTriangleMesh.vertex.map Prod.fst).Nodup) ∧
      ((twoTriangleMesh.vertex = [] → mesh_is_connected twoTriangleMesh = false) ∧
        (twoTriangleMesh.vertex ≠ [] →
          (mesh_is_connected twoTriangleMesh = true ↔
            (connected_components (mesh_adjacency twoTriangleMesh)).length = 1))) :=
  ⟨⟨by decide, by decide⟩,
    mesh_is_connected_iff_one_component twoTriangleMesh (by decide) (by decide)⟩

/-- C10: `mesh_is_connected` and `network_is_connected` are the same
computation stated over the two container types: for a mesh and a network
with the same vertex table and the same adjacency dictionary (hence the same
arbitrary-vertex selection, the first vertex key), the two functions return
the same boolean. -/
theorem network_is_connected_eq_mesh_is_connected (m : Mesh) (n : Network)
    (hv : n.vertex = m.vertex) (ha : n.adjacency = mesh_adjacency m) :
    network_is_connected n = mesh_is_connected m := by
  unfold network_is_connected mesh_is_connected network_get_any_vertex
    get_any_vertex network_number_of_vertices number_of_vertices
  rw [hv, ha]

/-- Witness for C10: the network copy of the one-triangle mesh agrees with
the mesh on the connectivity check. -/
theorem network_is_connected_eq_mesh_is_connected_witness :
    ((Network.mk oneTriangleMesh.vertex (mesh_adjacency oneTriangleMesh)).vertex
        = oneTriangleMesh.vertex ∧
      (Network.mk oneTriangleMesh.vertex (mesh_adjacency oneTriangleMesh)).adjacency
        = mesh_adjacency oneTriangleMesh) ∧
      network_is_connected
          (Network.mk oneTriangleMesh.vertex (mesh_adjacency oneTriangleMesh))
        = mesh_is_connected oneTriangleMesh :=
  ⟨⟨rfl, rfl⟩,
    network_is_connected_eq_mesh_is_connected oneTriangleMesh
      (Network.mk oneTriangleMesh.vertex (mesh_adjacency oneTriangleMesh)) rfl rfl⟩

/-! ## Laplacian matrices (`compas/datastructures/mesh/matrices.py`)

Sparse matrices are embedded as COO triple lists `(row, column, value)` with
exact rational values in place of floats; raising a Python exception is the
`.error` case. -/

/-- Modelled from the spec: the `key_index` bijection enumerates the vertices
in their current iteration order, assigning 0-based integer indices. -/
def key_index (m : Mesh) : List (Nat × Nat) :=
  (m.vertex.map Prod.fst).enum.map (fun p => (p.2, p.1))

/-- The vertex loop of `mesh_laplacian_matrix`: one diagonal unit entry per
vertex, then `-1/degree` entries towards the neighbours.  The division
`d = -1. / w` is executed before the guardless neighbour loop, so a vertex
with zero neighbours raises `ZeroDivisionError` exactly as in Python. -/
def lapGo (m : Mesh) (ki : List (Nat × Nat)) :
    List (Nat × Point) → Except String (List (Nat × Nat × ℚ))
  | [] => .ok []
  | kv :: rest =>
    let r := (alistGet ki kv.1).getD 0
    let ns := vertex_neighbors m kv.1
    if ns.length = 0 then .error "ZeroDivisionError: float division by zero"
    else
      match lapGo m ki rest with
      | .error e => .error e
      | .ok t =>
          .ok ((r, r, (1 : ℚ)) ::
            (ns.map (fun nbr => (r, (alistGet ki nbr).getD 0,
              -1 / (ns.length : ℚ))) ++ t))

/-- `mesh_laplacian_matrix(mesh)` from `matrices.py`: uniform weights, `1` on
the diagonal and `-1/degree` towards each neighbour, returned as COO triples. -/
def mesh_laplacian_matrix (m : Mesh) : Except String (List (Nat × Nat × ℚ)) :=
  lapGo m (key_index m) m.vertex

/-- C8 counterexample: on the mesh whose single vertex has no neighbours,
`mesh_laplacian_matrix` raises `ZeroDivisionError` instead of guarding the
zero-degree row. -/
theorem mesh_laplacian_matrix_zero_degree_raises :
    mesh_laplacian_matrix isolatedVertexMesh =
      .error "ZeroDivisionError: float division by zero" := rfl

theorem lapGo_error_of_mem (m : Mesh) (ki : List (Nat × Nat)) (k : Nat) (p : Point)
    (hnb : vertex_neighbors m k = []) :
    ∀ (l : List (Nat × Point)), (k, p) ∈ l → ∃ e, lapGo m ki l = .error e := by
  intro l
  induction l with
  | nil => intro h; exact absurd h (List.not_mem_nil _)
  | cons kv rest ih =>
    intro hmem
    by_cases h0 : (vertex_neighbors m kv.1).length = 0
    · exact ⟨"ZeroDivisionError: float division by zero", by
        show (if (vertex_neighbors m kv.1).length = 0 then _ else _) = _
        rw [if_pos h0]⟩
    · have hrest : (k, p) ∈ rest := by
        rcases List.mem_cons.mp hmem with heq | hrest
        · exfalso
          apply h0
          rw [← heq]
          show (vertex_neighbors m k).length = 0
          rw [hnb]
          rfl
        · exact hrest
      obtain ⟨e, he⟩ := ih hrest
      refine ⟨e, ?_⟩
      show (if (vertex_neighbors m kv.1).length = 0 then _ else _) = _
      rw [if_neg h0, he]

/-- C8: amended — the code has no zero-degree guard: for every mesh containing
a vertex with no neighbours, `mesh_laplacian_matrix` raises `ZeroDivisionError`
(from `d = -1. / w` with `w = 0`) instead of producing a matrix. -/
theorem mesh_laplacian_matrix_zero_degree_error (m : Mesh) (k : Nat) (p : Point)
    (hk : (k, p) ∈ m.vertex) (hnb : vertex_neighbors m k = []) :
    ∃ e, mesh_laplacian_matrix m = .error e :=
  lapGo_error_of_mem m (key_index m) k p hnb m.vertex hk

/-- Witness for C8: the isolated-vertex mesh satisfies the amended statement. -/
theorem mesh_laplacian_matrix_zero_degree_error_witness :
    ((0, ((0 : ℚ), (0 : ℚ), (0 : ℚ))) ∈ isolatedVertexMesh.vertex ∧
        vertex_neighbors isolatedVertexMesh 0 = []) ∧
      ∃ e, mesh_laplacian_matrix isolatedVertexMesh = .error e :=
  ⟨⟨List.mem_singleton.mpr rfl, rfl⟩,
    mesh_laplacian_matrix_zero_degree_error isolatedVertexMesh 0 (0, 0, 0)
      (List.mem_singleton.mpr rfl) rfl⟩

/-- Modelled from the spec: `edges()` yields every undirected edge of the
half-edge index exactly once, in the first-encountered direction. -/
def mesh_edges (m : Mesh) : List (Nat × Nat) :=
  m.halfedge.foldl
    (fun acc e => if e.1 ∈ acc ∨ (e.1.2, e.1.1) ∈ acc then acc else acc ++ [e.1])
    []

/-- `trimesh_edge_cotangents(mesh, u, v)` from `matrices.py`: the source body
is `a = trimesh_edge_cotangent(u, v); b = trimesh_edge_cotangent(v, u)`, which
omits the `mesh` argument of the three-parameter callee
`trimesh_edge_cotangent(mesh, u, v)`, so Python raises `TypeError` on every
call before any cotangent is computed; the cotangent body is unreachable from
this call site and is therefore not modelled. -/
def trimesh_edge_cotangents (m : Mesh) (u v : Nat) : Except String (ℚ × ℚ) :=
  .error "TypeError: trimesh_edge_cotangent() missing 1 required positional argument: v"

/-- The edge loop of `trimesh_cotangent_laplacian_matrix`: for each edge, half
of each of the two cotangents as the off-diagonal entries `(i, j)` and
`(j, i)`. -/
def cotLapGo (m : Mesh) (ki : List (Nat × Nat)) :
    List (Nat × Nat) → Except String (List (Nat × Nat × ℚ))
  | [] => .ok []
  | (u, v) :: rest =>
    match trimesh_edge_cotangents m u v with
    | .error e => .error e
    | .ok (a, b) =>
      match cotLapGo m ki rest with
      | .error e => .error e
      | .ok t =>
          .ok (((alistGet ki u).getD 0, (alistGet ki v).getD 0, (1 / 2 : ℚ) * a) ::
            ((alistGet ki v).getD 0, (alistGet ki u).getD 0, (1 / 2 : ℚ) * b) :: t)

/-- The sum of the entries of row `i` of a COO triple list. -/
def rowSum (entries : List (Nat × Nat × ℚ)) (i : Nat) : ℚ :=
  (entries.filter (fun e => e.1 == i)).foldl (fun s e => s + e.2.2) 0

/-- `trimesh_cotangent_laplacian_matrix(mesh)` from `matrices.py`: the
off-diagonal cotangent entries followed by the `L - spdiags(L * ones(n))`
step, which subtracts each row sum on the diagonal. -/
def trimesh_cotangent_laplacian_matrix (m : Mesh) :
    Except String (List (Nat × Nat × ℚ)) :=
  match cotLapGo m (key_index m) (mesh_edges m) with
  | .error e => .error e
  | .ok entries =>
      .ok (entries ++ (List.range (number_of_vertices m)).map
        (fun i => (i, i, -(rowSum entries i))))

/-- C4: the cotangent Laplacian cannot be built at all — `trimesh_edge_cotangents`
calls `trimesh_edge_cotangent(u, v)` without the mesh argument, so the first
processed edge raises `TypeError`.  Evaluated at the one-triangle mesh (which
has edges and no degenerate triangle), the construction returns that error
instead of a matrix with zero row sums. -/
theorem trimesh_cotangent_laplacian_matrix_raises :
    trimesh_cotangent_laplacian_matrix oneTriangleMesh =
      .error "TypeError: trimesh_edge_cotangent() missing 1 required positional argument: v" :=
  rfl

end Compas
